import Mathlib

/-!
Verification development for the expression algebra and device-evaluation
engine of the halo2-gpu-specific prover (src/halo2_proofs/src/plonk/evaluation_gpu.rs).

The Rust code is shallowly embedded:
* `BTreeMap<K, V>` values are modelled as association lists sorted strictly by
  key (the canonical representation of a B-tree map, matching its iteration
  order); the operations used by the source (`get`, `insert`, entry updates,
  `remove`, `pop_first`, `first_entry`) are defined below on that model.
* the scalar field `F: FieldExt` is an arbitrary commutative ring `F`;
* `u32` / `usize` values are modelled as `Nat`, `i32` as `Int` (overflow is
  not reachable for the quantities involved and is not modelled);
* Rust panics (`unwrap` on `None`, arithmetic underflow) are modelled by
  `Option`-valued functions returning `none`.
-/

set_option linter.unusedVariables false
set_option linter.unusedSectionVars false

/-! ### Sorted association lists: the model of BTreeMap -/

section SortedList

variable {K : Type} {V : Type} [LinearOrder K]

/-- Lookup by key (BTreeMap::get); first entry with the key. -/
def slGet (k : K) : List (K × V) → Option V
  | [] => none
  | p :: t => if k = p.1 then some p.2 else slGet k t

/-- Ordered insert, combining with an existing entry at the same key:
models the pervasive Rust pattern
if let Some(old) = m.get_mut(&k) \x7b *old = c(v, old) \x7d else \x7b m.insert(k, v) \x7d. -/
def slInsertWith (c : V → V → V) (k : K) (v : V) : List (K × V) → List (K × V)
  | [] => [(k, v)]
  | p :: t =>
    if k < p.1 then (k, v) :: p :: t
    else if k = p.1 then (p.1, c v p.2) :: t
    else p :: slInsertWith c k v t

/-- BTreeMap::insert (replace on collision). -/
def slInsert (k : K) (v : V) : List (K × V) → List (K × V) :=
  slInsertWith (fun a _ => a) k v

/-- BTreeMap::remove (drops the entry with the key, if any). -/
def slRemove (k : K) : List (K × V) → List (K × V)
  | [] => []
  | p :: t => if k = p.1 then t else p :: slRemove k t

/-- Keys strictly sorted: the representation invariant of a BTreeMap. -/
def SKSorted (L : List (K × V)) : Prop :=
  List.Pairwise (fun p q => p.1 < q.1) L

theorem SKSorted.nil : SKSorted ([] : List (K × V)) := List.Pairwise.nil

theorem slGet_cons (k : K) (p : K × V) (t : List (K × V)) :
    slGet k (p :: t) = if k = p.1 then some p.2 else slGet k t := rfl

theorem slGet_cons_self (p : K × V) (t : List (K × V)) :
    slGet p.1 (p :: t) = some p.2 := by simp [slGet]

theorem slGet_cons_self' (k : K) (v : V) (t : List (K × V)) :
    slGet k ((k, v) :: t) = some v := by simp [slGet]

theorem slGet_cons_ne {k : K} {p : K × V} (t : List (K × V)) (h : k ≠ p.1) :
    slGet k (p :: t) = slGet k t := by simp [slGet, h]

theorem slInsertWith_nil (c : V → V → V) (k : K) (v : V) :
    slInsertWith c k v [] = [(k, v)] := rfl

theorem slInsertWith_cons_lt {c : V → V → V} {k : K} {v : V} {p : K × V}
    {t : List (K × V)} (h : k < p.1) :
    slInsertWith c k v (p :: t) = (k, v) :: p :: t := by
  simp [slInsertWith, h]

theorem slInsertWith_cons_eq {c : V → V → V} {k : K} {v : V} {p : K × V}
    {t : List (K × V)} (h : k = p.1) :
    slInsertWith c k v (p :: t) = (p.1, c v p.2) :: t := by
  subst h
  simp [slInsertWith, lt_irrefl]

theorem slInsertWith_cons_gt {c : V → V → V} {k : K} {v : V} {p : K × V}
    {t : List (K × V)} (h : p.1 < k) :
    slInsertWith c k v (p :: t) = p :: slInsertWith c k v t := by
  have h1 : ¬k < p.1 := not_lt_of_gt h
  have h2 : k ≠ p.1 := (ne_of_lt h).symm
  simp [slInsertWith, h1, h2]

theorem slGet_eq_none_of_lt (L : List (K × V)) (k : K)
    (h : ∀ q ∈ L, k < q.1) : slGet k L = none := by
  induction L with
  | nil => rfl
  | cons p t ih =>
    rw [slGet_cons_ne t (ne_of_lt (h p (List.mem_cons_self p t)))]
    exact ih (fun q hq => h q (List.mem_cons_of_mem p hq))

theorem mem_key_of_mem_slInsertWith {c : V → V → V} {k : K} {v : V} {L : List (K × V)}
    {q : K × V} (h : q ∈ slInsertWith c k v L) : q.1 = k ∨ ∃ p ∈ L, q.1 = p.1 := by
  induction L with
  | nil =>
    rw [slInsertWith_nil, List.mem_singleton] at h
    exact Or.inl (by rw [h])
  | cons p t ih =>
    rcases lt_trichotomy k p.1 with h1 | h1 | h1
    · rw [slInsertWith_cons_lt h1, List.mem_cons, List.mem_cons] at h
      rcases h with h | h | h
      · exact Or.inl (by rw [h])
      · exact Or.inr ⟨p, List.mem_cons_self p t, by rw [h]⟩
      · exact Or.inr ⟨q, List.mem_cons_of_mem p h, rfl⟩
    · rw [slInsertWith_cons_eq h1, List.mem_cons] at h
      rcases h with h | h
      · exact Or.inr ⟨p, List.mem_cons_self p t, by rw [h]⟩
      · exact Or.inr ⟨q, List.mem_cons_of_mem p h, rfl⟩
    · rw [slInsertWith_cons_gt h1, List.mem_cons] at h
      rcases h with h | h
      · exact Or.inr ⟨p, List.mem_cons_self p t, by rw [h]⟩
      · rcases ih h with h' | ⟨r, hr, hq⟩
        · exact Or.inl h'
        · exact Or.inr ⟨r, List.mem_cons_of_mem p hr, hq⟩

theorem SKSorted_slInsertWith (c : V → V → V) (k : K) (v : V) {L : List (K × V)}
    (hL : SKSorted L) : SKSorted (slInsertWith c k v L) := by
  induction L with
  | nil => exact List.pairwise_singleton _ _
  | cons p t ih =>
    rcases List.pairwise_cons.1 hL with ⟨hp, ht⟩
    rcases lt_trichotomy k p.1 with h1 | h1 | h1
    · rw [slInsertWith_cons_lt h1]
      refine List.pairwise_cons.2 ⟨?_, hL⟩
      intro q hq
      rcases List.mem_cons.1 hq with rfl | hq
      · exact h1
      · exact lt_trans h1 (hp q hq)
    · rw [slInsertWith_cons_eq h1]
      exact List.pairwise_cons.2 ⟨hp, ht⟩
    · rw [slInsertWith_cons_gt h1]
      refine List.pairwise_cons.2 ⟨?_, ih ht⟩
      intro q hq
      rcases mem_key_of_mem_slInsertWith hq with h' | ⟨r, hr, hq'⟩
      · rw [h']; exact h1
      · rw [hq']; exact hp r hr

theorem slGet_slInsertWith (c : V → V → V) (k : K) (v : V) {L : List (K × V)}
    (hL : SKSorted L) (w : K) :
    slGet w (slInsertWith c k v L) =
      if w = k then
        some (match slGet k L with | none => v | some x => c v x)
      else slGet w L := by
  induction L with
  | nil =>
    by_cases h : w = k <;> simp [slInsertWith_nil, slGet, h]
  | cons p t ih =>
    rcases List.pairwise_cons.1 hL with ⟨hp, ht⟩
    rcases lt_trichotomy k p.1 with h1 | h1 | h1
    · have hnone : slGet k (p :: t) = none := by
        refine slGet_eq_none_of_lt _ _ ?_
        intro q hq
        rcases List.mem_cons.1 hq with rfl | hq
        · exact h1
        · exact lt_trans h1 (hp q hq)
      rw [slInsertWith_cons_lt h1, hnone]
      by_cases h : w = k
      · rw [if_pos h, h, slGet_cons_self']
      · rw [if_neg h, slGet_cons_ne _ h]
    · subst h1
      rw [slInsertWith_cons_eq rfl]
      by_cases h : w = p.1
      · rw [if_pos h, h, slGet_cons_self', slGet_cons_self]
      · rw [if_neg h, slGet_cons_ne _ h]
        exact @slGet_cons_ne K V _ w (p.1, c v p.2) t h
    · have hne : k ≠ p.1 := (ne_of_lt h1).symm
      rw [slInsertWith_cons_gt h1, slGet_cons_ne _ hne]
      by_cases h : w = p.1
      · have hwk : w ≠ k := by rw [h]; exact fun hh => hne hh.symm
        rw [if_neg hwk, h, slGet_cons_self, slGet_cons_self]
      · rw [slGet_cons_ne _ h, slGet_cons_ne _ h]
        exact ih ht

theorem slRemove_cons_eq {k : K} {p : K × V} {t : List (K × V)} (h : k = p.1) :
    slRemove k (p :: t) = t := by simp [slRemove, h]

theorem slRemove_cons_ne {k : K} {p : K × V} {t : List (K × V)} (h : k ≠ p.1) :
    slRemove k (p :: t) = p :: slRemove k t := by simp [slRemove, h]

theorem slGet_slRemove (k : K) {L : List (K × V)} (hL : SKSorted L) (w : K) :
    slGet w (slRemove k L) = if w = k then none else slGet w L := by
  induction L with
  | nil => by_cases h : w = k <;> simp [slRemove, slGet, h]
  | cons p t ih =>
    rcases List.pairwise_cons.1 hL with ⟨hp, ht⟩
    by_cases h1 : k = p.1
    · rw [slRemove_cons_eq h1]
      by_cases h : w = k
      · rw [if_pos h, h, h1]
        exact slGet_eq_none_of_lt _ _ hp
      · rw [if_neg h]
        have hwp : w ≠ p.1 := fun hh => h (hh.trans h1.symm)
        rw [slGet_cons_ne _ hwp]
    · rw [slRemove_cons_ne h1]
      by_cases h : w = p.1
      · have hwk : w ≠ k := fun hh => h1 (hh.symm.trans h)
        rw [if_neg hwk, h, slGet_cons_self, slGet_cons_self]
      · rw [slGet_cons_ne _ h, slGet_cons_ne _ h]
        exact ih ht

theorem slRemove_sublist (k : K) (L : List (K × V)) : (slRemove k L).Sublist L := by
  induction L with
  | nil => exact List.Sublist.refl []
  | cons p t ih =>
    by_cases h : k = p.1
    · simp only [slRemove, if_pos h]
      exact List.sublist_cons_self p t
    · simp only [slRemove, if_neg h]
      exact List.Sublist.cons₂ p ih

theorem SKSorted_slRemove (k : K) {L : List (K × V)} (hL : SKSorted L) :
    SKSorted (slRemove k L) :=
  List.Pairwise.sublist (slRemove_sublist k L) hL

theorem slGet_mem {k : K} {v : V} {L : List (K × V)} (h : slGet k L = some v) :
    (k, v) ∈ L := by
  induction L with
  | nil => exact absurd h (by simp [slGet])
  | cons p t ih =>
    by_cases h1 : k = p.1
    · rw [h1, slGet_cons_self] at h
      have hv : p.2 = v := Option.some.inj h
      rw [h1, ← hv]
      exact List.mem_cons_self _ _
    · rw [slGet_cons_ne _ h1] at h
      exact List.mem_cons_of_mem p (ih h)

theorem mem_slGet {k : K} {v : V} {L : List (K × V)} (hL : SKSorted L)
    (h : (k, v) ∈ L) : slGet k L = some v := by
  induction L with
  | nil => exact absurd h (List.not_mem_nil _)
  | cons p t ih =>
    rcases List.pairwise_cons.1 hL with ⟨hp, ht⟩
    rcases List.mem_cons.1 h with h | h
    · rw [← h]
      exact slGet_cons_self (k, v) t
    · have hk : k ≠ p.1 := (ne_of_gt (hp (k, v) h))
      rw [slGet_cons_ne _ hk]
      exact ih ht h

theorem slGet_isSome_iff {k : K} {L : List (K × V)} :
    (slGet k L).isSome ↔ k ∈ L.map Prod.fst := by
  induction L with
  | nil => simp [slGet]
  | cons p t ih =>
    by_cases h : k = p.1
    · subst h
      simp [slGet_cons_self]
    · rw [slGet_cons_ne _ h]
      simp [h, ih]

theorem slGet_ext {L1 L2 : List (K × V)} (h1 : SKSorted L1) (h2 : SKSorted L2)
    (h : ∀ k, slGet k L1 = slGet k L2) : L1 = L2 := by
  induction L1 generalizing L2 with
  | nil =>
    cases L2 with
    | nil => rfl
    | cons q s =>
      have := h q.1
      rw [slGet_cons_self] at this
      exact absurd this.symm (by simp [slGet])
  | cons p t ih =>
    cases L2 with
    | nil =>
      have := h p.1
      rw [slGet_cons_self] at this
      exact absurd this (by simp [slGet])
    | cons q s =>
      rcases List.pairwise_cons.1 h1 with ⟨hp, ht⟩
      rcases List.pairwise_cons.1 h2 with ⟨hq, hs⟩
      have hpq : p.1 = q.1 := by
        by_contra hne
        rcases lt_trichotomy p.1 q.1 with hlt | heq | hgt
        · have hmem := slGet_mem ((h p.1).symm ▸ slGet_cons_self p t)
          rcases List.mem_cons.1 hmem with hh | hh
          · exact hne (congrArg Prod.fst hh)
          · exact absurd (hq _ hh) (not_lt_of_gt hlt)
        · exact hne heq
        · have hmem := slGet_mem ((h q.1) ▸ slGet_cons_self q s)
          rcases List.mem_cons.1 hmem with hh | hh
          · exact hne (congrArg Prod.fst hh).symm
          · exact absurd (hp _ hh) (not_lt_of_gt hgt)
      have hval : p.2 = q.2 := by
        have := h p.1
        rw [slGet_cons_self] at this
        rw [hpq] at this
        rw [slGet_cons_self] at this
        exact Option.some.inj this
      have htail : ∀ k, slGet k t = slGet k s := by
        intro k
        by_cases hk : k = p.1
        · subst hk
          rw [slGet_eq_none_of_lt t _ hp, slGet_eq_none_of_lt s _ (by rw [hpq]; exact hq)]
        · have := h k
          rw [slGet_cons_ne _ hk, slGet_cons_ne _ (hpq ▸ hk)] at this
          exact this
      have hpq' : p = q := Prod.ext hpq hval
      rw [hpq', ih ht hs htail]

theorem slInsertWith_ne_nil (c : V → V → V) (k : K) (v : V) (L : List (K × V)) :
    slInsertWith c k v L ≠ [] := by
  cases L with
  | nil => simp [slInsertWith_nil]
  | cons p t =>
    rcases lt_trichotomy k p.1 with h1 | h1 | h1
    · rw [slInsertWith_cons_lt h1]; simp
    · rw [slInsertWith_cons_eq h1]; simp
    · rw [slInsertWith_cons_gt h1]; simp

end SortedList

/-! ### ProveExpressionUnit and its total order

Rust: `#[derive(Clone, Debug, Eq, Ord, PartialEq, PartialOrd)] pub enum
ProveExpressionUnit` with variants `Fixed`, `Advice`, `Instance`, each holding
`column_index: usize` and `rotation: Rotation` (a newtype over `i32`).  The
derived `Ord` compares the variant tag first (declaration order), then the
fields lexicographically; we realise the same order by lifting along an
injective key into `Nat ×ₗ (Nat ×ₗ Int)`. -/

inductive ProveExpressionUnit : Type where
  | Fixed (column_index : ℕ) (rotation : ℤ)
  | Advice (column_index : ℕ) (rotation : ℤ)
  | Instance (column_index : ℕ) (rotation : ℤ)
deriving DecidableEq, Repr

/-- The rotation field of a unit. -/
def ProveExpressionUnit.rot : ProveExpressionUnit → ℤ
  | .Fixed _ r => r
  | .Advice _ r => r
  | .Instance _ r => r

/-- Tag-then-fields key realising the derived Rust `Ord`. -/
def ProveExpressionUnit.okey : ProveExpressionUnit → ℕ ×ₗ (ℕ ×ₗ ℤ)
  | .Fixed ci r => toLex (0, toLex (ci, r))
  | .Advice ci r => toLex (1, toLex (ci, r))
  | .Instance ci r => toLex (2, toLex (ci, r))

theorem ProveExpressionUnit.okey_injective :
    Function.Injective ProveExpressionUnit.okey := by
  intro a b h
  cases a <;> cases b <;> simp only [okey, toLex_inj, Prod.mk.injEq] at h <;>
    simp_all

instance : LinearOrder ProveExpressionUnit :=
  LinearOrder.lift' ProveExpressionUnit.okey ProveExpressionUnit.okey_injective

/-! ### Expression trees -/

/-- Rust enum `ProveExpression<F>` (evaluation_gpu.rs, lines 64-72).
`Y` holds a `BTreeMap<u32, F>`, modelled as a sorted association list. -/
inductive ProveExpression (F : Type) : Type where
  | Unit (u : ProveExpressionUnit)
  | Sum (l r : ProveExpression F)
  | Product (l r : ProveExpression F)
  | Y (ys : List (ℕ × F))
deriving Repr

/-- Rust enum `LookupProveExpression<F>` (evaluation_gpu.rs, lines 74-80). -/
inductive LookupProveExpression (F : Type) : Type where
  | Expression (e : ProveExpression F)
  | LcTheta (l r : LookupProveExpression F)
  | LcBeta (l r : LookupProveExpression F)
  | AddGamma (l : LookupProveExpression F)

/-- The circuit-facing symbolic expression `super::Expression<F>`.  Its
definition lives outside the packaged sources; the variants and their payloads
are modelled from the spec (section 4.1) and from the exhaustive match in
`ProveExpression::from_expr` (lines 438-487). -/
inductive Expression (F : Type) : Type where
  | Constant (x : F)
  | Selector
  | Fixed (column_index : ℕ) (rotation : ℤ)
  | Advice (column_index : ℕ) (rotation : ℤ)
  | Instance (column_index : ℕ) (rotation : ℤ)
  | Negated (e : Expression F)
  | Sum (l r : Expression F)
  | Product (l r : Expression F)
  | Scaled (l : Expression F) (x : F)

namespace ProveExpression

variable {F : Type} [CommRing F]

/-- Rust `ProveExpression::new` (line 434): `Y {0 ↦ 0}`. -/
def new : ProveExpression F := ProveExpression.Y [(0, 0)]

/-- Rust `ProveExpression::from_expr` (lines 438-487).  The `Selector` arm is
`unreachable!()` in the source, modelled by `none`. -/
def from_expr : Expression F → Option (ProveExpression F)
  | .Constant x => some (.Y [(0, x)])
  | .Selector => none
  | .Fixed ci r => some (.Unit (.Fixed ci r))
  | .Advice ci r => some (.Unit (.Advice ci r))
  | .Instance ci r => some (.Unit (.Instance ci r))
  | .Negated e => (from_expr e).map (fun t => .Product t (.Y [(0, -1)]))
  | .Sum l r => do
      let l ← from_expr l
      let r ← from_expr r
      pure (.Sum l r)
  | .Product l r => do
      let l ← from_expr l
      let r ← from_expr r
      pure (.Product l r)
  | .Scaled l x => (from_expr l).map (fun t => .Product t (.Y [(0, x)]))

/-- Rust `ProveExpression::add_gate` (lines 489-499):
`Sum(Product(self, Y{1 ↦ 1}), from_expr(e))`. -/
def add_gate (t : ProveExpression F) (e : Expression F) : Option (ProveExpression F) :=
  (from_expr e).map (fun g => .Sum (.Product t (.Y [(1, 1)])) g)

/-- Rust `ProveExpression::get_degree` (lines 608-623). -/
def get_degree : ProveExpression F → ℕ × ℕ
  | .Unit _ => (1, 0)
  | .Sum l r =>
      let dl := l.get_degree
      let dr := r.get_degree
      (dl.1 + dr.1 + 1, dl.1 + dr.1)
  | .Product l r =>
      let dl := l.get_degree
      let dr := r.get_degree
      (dl.1 + dr.1 + 1, dl.1 + dr.1)
  | .Y _ => (0, 0)

/-- Rust `ProveExpression::ys_add_assign` (lines 625-633): for each entry of
`r`, add into `l` (new value on collision is `r.1 + old`). -/
def ys_add_assign (l : List (ℕ × F)) (r : List (ℕ × F)) : List (ℕ × F) :=
  r.foldl (fun acc p => slInsertWith (fun a b => a + b) p.1 p.2 acc) l

/-- Rust `ProveExpression::ys_mul` (lines 635-651): convolution of the two
y-coefficient maps, accumulating additively on colliding orders. -/
def ys_mul (l : List (ℕ × F)) (r : List (ℕ × F)) : List (ℕ × F) :=
  l.foldl
    (fun res pl =>
      r.foldl
        (fun res pr => slInsertWith (fun a b => a + b) (pl.1 + pr.1) (pl.2 * pr.2) res)
        res)
    []

/-- Rust `ProveExpression::flatten` (lines 654-698), canonical sum-of-monomials
form: monomial key (sorted unit list) to y-coefficient map. -/
def flatten : ProveExpression F → List (List ProveExpressionUnit × List (ℕ × F))
  | .Unit u => [([u], [(0, 1)])]
  | .Sum l r =>
      (flatten r).foldl
        (fun acc p => slInsertWith (fun new old => ys_add_assign old new) p.1 p.2 acc)
        (flatten l)
  | .Product l r =>
      (flatten l).foldl
        (fun res pl =>
          (flatten r).foldl
            (fun res pr =>
              slInsertWith (fun new old => ys_add_assign old new)
                ((pl.1 ++ pr.1).mergeSort (fun a b => a ≤ b))
                (ys_mul pl.2 pr.2) res)
            res)
        []
  | .Y ys => [([], ys)]

end ProveExpression

/-! ### Denotational semantics

Evaluation of an expression at a fixed assignment of column values (one field
element per unit, i.e. per referenced column cell at one evaluation point) and
a fixed challenge y.  This is the algebraic reading of the node table in
spec section 4.4. -/

section Semantics

variable {F : Type} [CommRing F]

/-- Value of a y-coefficient map: Σ coeff · y^order. -/
def evalYs (y : F) (m : List (ℕ × F)) : F :=
  (m.map (fun p => p.2 * y ^ p.1)).sum

/-- Value of an expression tree. -/
def evalPE (asg : ProveExpressionUnit → F) (y : F) : ProveExpression F → F
  | .Unit u => asg u
  | .Sum l r => evalPE asg y l + evalPE asg y r
  | .Product l r => evalPE asg y l * evalPE asg y r
  | .Y m => evalYs y m

/-- Value of a monomial key (product of the referenced column values). -/
def evalMono (asg : ProveExpressionUnit → F) (us : List ProveExpressionUnit) : F :=
  (us.map asg).prod

/-- Value of a canonical (flattened) map: Σ monomial · coefficient-poly. -/
def evalFlat (asg : ProveExpressionUnit → F) (y : F)
    (L : List (List ProveExpressionUnit × List (ℕ × F))) : F :=
  (L.map (fun p => evalMono asg p.1 * evalYs y p.2)).sum

end Semantics

/-! ### Evaluation lemmas for the canonical form -/

section EvalFlatten

variable {F : Type} [CommRing F]

open ProveExpression

theorem evalYs_nil (y : F) : evalYs y ([] : List (ℕ × F)) = 0 := rfl

theorem evalYs_slInsertWith (y : F) (k : ℕ) (v : F) (m : List (ℕ × F)) :
    evalYs y (slInsertWith (fun a b => a + b) k v m) = v * y ^ k + evalYs y m := by
  induction m with
  | nil => simp [slInsertWith_nil, evalYs]
  | cons p t ih =>
    rcases lt_trichotomy k p.1 with h1 | h1 | h1
    · rw [slInsertWith_cons_lt h1]
      simp [evalYs]
    · subst h1
      rw [slInsertWith_cons_eq rfl]
      simp [evalYs]
      ring
    · rw [slInsertWith_cons_gt h1]
      simp only [evalYs, List.map_cons, List.sum_cons] at ih ⊢
      rw [ih]
      ring

theorem evalYs_ys_add_assign (y : F) (l r : List (ℕ × F)) :
    evalYs y (ys_add_assign l r) = evalYs y l + evalYs y r := by
  induction r generalizing l with
  | nil => simp [ys_add_assign, evalYs]
  | cons p t ih =>
    show evalYs y (ys_add_assign (slInsertWith _ p.1 p.2 l) t) = _
    rw [ih, evalYs_slInsertWith]
    simp only [evalYs, List.map_cons, List.sum_cons]
    ring

theorem evalYs_ys_mul_inner (y : F) (a : F) (k : ℕ) (r : List (ℕ × F))
    (acc : List (ℕ × F)) :
    evalYs y (r.foldl
        (fun res pr => slInsertWith (fun x w => x + w) (k + pr.1) (a * pr.2) res) acc) =
      evalYs y acc + a * y ^ k * evalYs y r := by
  induction r generalizing acc with
  | nil => simp [evalYs]
  | cons p t ih =>
    rw [List.foldl_cons, ih, evalYs_slInsertWith]
    simp only [evalYs, List.map_cons, List.sum_cons]
    ring

theorem evalYs_ys_mul (y : F) (l r : List (ℕ × F)) :
    evalYs y (ys_mul l r) = evalYs y l * evalYs y r := by
  show evalYs y (l.foldl _ []) = _
  have main : ∀ acc : List (ℕ × F),
      evalYs y (l.foldl
        (fun res pl => r.foldl
          (fun res pr => slInsertWith (fun x w => x + w) (pl.1 + pr.1) (pl.2 * pr.2) res)
          res) acc) = evalYs y acc + evalYs y l * evalYs y r := by
    induction l with
    | nil => intro acc; simp [evalYs]
    | cons p t ih =>
      intro acc
      rw [List.foldl_cons, ih, evalYs_ys_mul_inner]
      simp only [evalYs, List.map_cons, List.sum_cons]
      ring
  rw [main []]
  simp [evalYs]

theorem evalFlat_slInsertWith (asg : ProveExpressionUnit → F) (y : F)
    (k : List ProveExpressionUnit) (v : List (ℕ × F))
    (L : List (List ProveExpressionUnit × List (ℕ × F))) :
    evalFlat asg y (slInsertWith (fun new old => ys_add_assign old new) k v L) =
      evalMono asg k * evalYs y v + evalFlat asg y L := by
  induction L with
  | nil => simp [slInsertWith_nil, evalFlat]
  | cons p t ih =>
    rcases lt_trichotomy k p.1 with h1 | h1 | h1
    · rw [slInsertWith_cons_lt h1]
      simp [evalFlat]
    · subst h1
      rw [slInsertWith_cons_eq rfl]
      simp only [evalFlat, List.map_cons, List.sum_cons, evalYs_ys_add_assign]
      ring
    · rw [slInsertWith_cons_gt h1]
      simp only [evalFlat, List.map_cons, List.sum_cons] at ih ⊢
      rw [ih]
      ring

theorem evalFlat_merge (asg : ProveExpressionUnit → F) (y : F)
    (A B : List (List ProveExpressionUnit × List (ℕ × F))) :
    evalFlat asg y
        (B.foldl
          (fun acc p => slInsertWith (fun new old => ys_add_assign old new) p.1 p.2 acc) A) =
      evalFlat asg y A + evalFlat asg y B := by
  induction B generalizing A with
  | nil => simp [evalFlat]
  | cons p t ih =>
    rw [List.foldl_cons, ih, evalFlat_slInsertWith]
    simp only [evalFlat, List.map_cons, List.sum_cons]
    ring

theorem evalMono_mergeSort (asg : ProveExpressionUnit → F)
    (us : List ProveExpressionUnit) :
    evalMono asg (us.mergeSort (fun a b => a ≤ b)) = evalMono asg us := by
  unfold evalMono
  exact List.Perm.prod_eq (List.Perm.map asg (List.mergeSort_perm us _))

theorem evalMono_append (asg : ProveExpressionUnit → F)
    (a b : List ProveExpressionUnit) :
    evalMono asg (a ++ b) = evalMono asg a * evalMono asg b := by
  unfold evalMono
  rw [List.map_append, List.prod_append]

theorem evalFlat_prod_inner (asg : ProveExpressionUnit → F) (y : F)
    (lk : List ProveExpressionUnit) (lv : List (ℕ × F))
    (B acc : List (List ProveExpressionUnit × List (ℕ × F))) :
    evalFlat asg y
        (B.foldl
          (fun res pr =>
            slInsertWith (fun new old => ys_add_assign old new)
              ((lk ++ pr.1).mergeSort (fun a b => a ≤ b)) (ys_mul lv pr.2) res) acc) =
      evalFlat asg y acc + evalMono asg lk * evalYs y lv * evalFlat asg y B := by
  induction B generalizing acc with
  | nil => simp [evalFlat]
  | cons p t ih =>
    rw [List.foldl_cons, ih, evalFlat_slInsertWith, evalMono_mergeSort, evalMono_append,
      evalYs_ys_mul]
    simp only [evalFlat, List.map_cons, List.sum_cons]
    ring

theorem evalFlat_prod (asg : ProveExpressionUnit → F) (y : F)
    (A B acc : List (List ProveExpressionUnit × List (ℕ × F))) :
    evalFlat asg y
        (A.foldl
          (fun res pl =>
            B.foldl
              (fun res pr =>
                slInsertWith (fun new old => ys_add_assign old new)
                  ((pl.1 ++ pr.1).mergeSort (fun a b => a ≤ b)) (ys_mul pl.2 pr.2) res)
              res) acc) =
      evalFlat asg y acc + evalFlat asg y A * evalFlat asg y B := by
  induction A generalizing acc with
  | nil => simp [evalFlat]
  | cons p t ih =>
    rw [List.foldl_cons, ih, evalFlat_prod_inner]
    simp only [evalFlat, List.map_cons, List.sum_cons]
    ring

/-- Flatten preserves the value of the expression. -/
theorem evalFlat_flatten (asg : ProveExpressionUnit → F) (y : F)
    (e : ProveExpression F) : evalFlat asg y (flatten e) = evalPE asg y e := by
  induction e with
  | Unit u => simp [flatten, evalFlat, evalPE, evalMono, evalYs]
  | Sum l r ihl ihr =>
    show evalFlat asg y ((flatten r).foldl _ (flatten l)) = _
    rw [evalFlat_merge, ihl, ihr]
    rfl
  | Product l r ihl ihr =>
    show evalFlat asg y ((flatten l).foldl _ []) = _
    rw [evalFlat_prod asg y (flatten l) (flatten r) [], ihl, ihr]
    simp [evalFlat, evalPE]
  | Y ys => simp [flatten, evalFlat, evalPE, evalMono]

end EvalFlatten

/-! ### C10: get_degree -/

/-- C10: `get_degree` returns exactly `(1,0)` on `Unit`, `(0,0)` on `Y`, and
`(l.0 + r.0 + 1, l.0 + r.0)` on both `Sum(l,r)` and `Product(l,r)` (the `Sum`
case deliberately uses the same formula as `Product`). -/
theorem c10_get_degree {F : Type} [CommRing F] :
    (∀ u : ProveExpressionUnit, (ProveExpression.Unit (F := F) u).get_degree = (1, 0)) ∧
    (∀ ys : List (ℕ × F), (ProveExpression.Y ys).get_degree = (0, 0)) ∧
    (∀ l r : ProveExpression F,
      (ProveExpression.Sum l r).get_degree =
        (l.get_degree.1 + r.get_degree.1 + 1, l.get_degree.1 + r.get_degree.1)) ∧
    (∀ l r : ProveExpression F,
      (ProveExpression.Product l r).get_degree =
        (l.get_degree.1 + r.get_degree.1 + 1, l.get_degree.1 + r.get_degree.1)) ∧
    (∀ l r : ProveExpression F,
      (ProveExpression.Sum l r).get_degree = (ProveExpression.Product l r).get_degree) := by
  refine ⟨fun u => rfl, fun ys => rfl, fun l r => rfl, fun l r => rfl, fun l r => rfl⟩

/-! ### Reconstruction (Rust lines 501-606)

`reconstruct` converts each monomial key into a multiplicity map
(`BTreeMap<ProveExpressionUnit, u32>`) and hands the list of
(multiplicity map, coefficient map) pairs to `_reconstruct`, the greedy
most-frequent-unit factoring.  The two `unwrap`s of the source
(`map.first_entry().unwrap()` on an empty count map, and the `u32`
underflow `c - 1` for a stored multiplicity 0) are modelled by `none`. -/

/-- One pair processed by `_reconstruct`: multiplicity map and y-coefficients. -/
abbrev RPair (F : Type) : Type := List (ProveExpressionUnit × ℕ) × List (ℕ × F)

namespace ProveExpression

variable {F : Type}

/-- Total multiplicity of one pair (sum of the stored unit multiplicities). -/
def pairMsum (p : RPair F) : ℕ := (p.1.map Prod.snd).sum

/-- Total multiplicity of a pair list (termination measure ingredient). -/
def msum (tree : List (RPair F)) : ℕ := (tree.map pairMsum).sum

/-- Rust `____reconstruct` (lines 505-514): multiply `c` copies of the unit.
`c = 0` cannot occur on any path reaching this function (the caller would
have underflowed first); it is mapped to `Unit u` for totality. -/
def ____reconstruct (u : ProveExpressionUnit) : ℕ → ProveExpression F
  | 0 => .Unit u
  | 1 => .Unit u
  | c + 2 => .Product (.Unit u) (____reconstruct u (c + 1))

/-- Rust `__reconstruct` (lines 516-526): `pop_first` peels the least unit
(the head of the sorted multiplicity map). -/
def __reconstruct (us : List (ProveExpressionUnit × ℕ)) (coeff : List (ℕ × F)) :
    ProveExpression F :=
  match us with
  | [] => .Y coeff
  | p :: t => .Product (__reconstruct t coeff) (____reconstruct p.1 p.2)

/-- The per-unit occurrence count map built at lines 538-548: one increment
per pair whose multiplicity map mentions the unit. -/
def countTree (tree : List (RPair F)) : List (ProveExpressionUnit × ℕ) :=
  tree.foldl
    (fun m p => p.1.foldl (fun m q => slInsertWith (fun a b => a + b) q.1 1 m) m) []

/-- The max-scan of lines 550-558: start from the first key with count 0,
replace whenever a strictly greater count appears. -/
def selectMaxFromC (u : ProveExpressionUnit) (c : ℕ) :
    List (ProveExpressionUnit × ℕ) → ProveExpressionUnit × ℕ
  | [] => (u, c)
  | p :: t => if c < p.2 then selectMaxFromC p.1 p.2 t else selectMaxFromC u c t

/-- One pair of the partition loop (lines 563-577): `remove` the chosen unit,
re-inserting a decremented multiplicity when it was at least 2.  The result
flag tells whether the pair contained the unit (goes to the left list).
A stored multiplicity of 0 is the `u32` underflow `c - 1`: `none`. -/
def decStep (u : ProveExpressionUnit) (p : RPair F) : Option (Bool × RPair F) :=
  match slGet u p.1 with
  | none => some (false, p)
  | some 1 => some (true, (slRemove u p.1, p.2))
  | some 0 => none
  | some (c + 2) => some (true, (slInsert u (c + 1) (slRemove u p.1), p.2))

/-- The partition loop of lines 560-577, preserving pair order. -/
def partitionPairs (u : ProveExpressionUnit) :
    List (RPair F) → Option (List (RPair F) × List (RPair F))
  | [] => some ([], [])
  | p :: t =>
    match decStep u p with
    | none => none
    | some (b, q) =>
      match partitionPairs u t with
      | none => none
      | some (l, r) => if b then some (q :: l, r) else some (l, q :: r)

theorem partitionPairs_nil (u : ProveExpressionUnit) :
    partitionPairs (F := F) u [] = some ([], []) := rfl

theorem partitionPairs_cons (u : ProveExpressionUnit) (p : RPair F) (t : List (RPair F)) :
    partitionPairs u (p :: t) =
      match decStep u p with
      | none => none
      | some (b, q) =>
        match partitionPairs u t with
        | none => none
        | some (l, r) => if b then some (q :: l, r) else some (l, q :: r) := rfl


theorem snd_sum_slRemove {u : ProveExpressionUnit} {M : List (ProveExpressionUnit × ℕ)}
    {v : ℕ} (h : slGet u M = some v) :
    ((slRemove u M).map Prod.snd).sum + v = (M.map Prod.snd).sum := by
  induction M with
  | nil => exact absurd h (by simp [slGet])
  | cons p t ih =>
    by_cases h1 : u = p.1
    · rw [h1, slGet_cons_self] at h
      rw [slRemove_cons_eq h1]
      have hv : p.2 = v := Option.some.inj h
      simp only [List.map_cons, List.sum_cons]
      omega
    · rw [slGet_cons_ne _ h1] at h
      rw [slRemove_cons_ne h1]
      simp only [List.map_cons, List.sum_cons]
      have := ih h
      omega

theorem snd_sum_slInsert (k : ProveExpressionUnit) (v : ℕ)
    (M : List (ProveExpressionUnit × ℕ)) :
    ((slInsert k v M).map Prod.snd).sum ≤ v + (M.map Prod.snd).sum := by
  induction M with
  | nil => simp [slInsert, slInsertWith_nil]
  | cons p t ih =>
    rcases lt_trichotomy k p.1 with h1 | h1 | h1
    · rw [slInsert, slInsertWith_cons_lt h1]
      simp
    · rw [slInsert, slInsertWith_cons_eq h1]
      simp only [List.map_cons, List.sum_cons]
      omega
    · rw [slInsert, slInsertWith_cons_gt h1]
      simp only [List.map_cons, List.sum_cons]
      rw [slInsert] at ih
      omega

theorem decStep_false {u : ProveExpressionUnit} {p q : RPair F}
    (h : decStep u p = some (false, q)) : q = p := by
  unfold decStep at h
  split at h <;> simp_all

theorem decStep_true_lt {u : ProveExpressionUnit} {p q : RPair F}
    (h : decStep u p = some (true, q)) : pairMsum q < pairMsum p := by
  unfold decStep at h
  split at h
  · simp at h
  · rename_i hg
    simp only [Option.some.injEq, Prod.mk.injEq, true_and] at h
    have h1 := snd_sum_slRemove hg
    rw [← h]
    show ((slRemove u p.1).map Prod.snd).sum < (p.1.map Prod.snd).sum
    omega
  · simp at h
  · rename_i c hg
    simp only [Option.some.injEq, Prod.mk.injEq, true_and] at h
    have h1 := snd_sum_slRemove hg
    have h2 := snd_sum_slInsert u (c + 1) (slRemove u p.1)
    rw [← h]
    show ((slInsert u (c + 1) (slRemove u p.1)).map Prod.snd).sum < (p.1.map Prod.snd).sum
    omega

theorem decStep_isSome_flag {u : ProveExpressionUnit} {p : RPair F} {b : Bool} {q : RPair F}
    (h : decStep u p = some (b, q)) : (slGet u p.1).isSome ↔ b = true := by
  unfold decStep at h
  split at h <;> rename_i hg <;> simp_all

theorem partitionPairs_msum {u : ProveExpressionUnit} {tree l r : List (RPair F)}
    (h : partitionPairs u tree = some (l, r)) :
    msum l + l.length + msum r ≤ msum tree ∧ l.length + r.length = tree.length := by
  induction tree generalizing l r with
  | nil =>
    rw [partitionPairs_nil] at h
    obtain ⟨rfl, rfl⟩ := Prod.mk.inj (Option.some.inj h).symm
    simp [msum]
  | cons p t ih =>
    rw [partitionPairs_cons] at h
    rcases hs : decStep u p with _ | ⟨b, q⟩ <;> rw [hs] at h
    · simp at h
    · rcases hp : partitionPairs u t with _ | ⟨l', r'⟩ <;> rw [hp] at h
      · simp at h
      · have ihm := ih hp
        cases b with
        | true =>
          simp only [if_true] at h
          obtain ⟨rfl, rfl⟩ := Prod.mk.inj (Option.some.inj h).symm
          have hq := decStep_true_lt hs
          simp only [msum, List.map_cons, List.sum_cons, List.length_cons] at ihm ⊢
          omega
        | false =>
          simp only [Bool.false_eq_true, if_false] at h
          obtain ⟨rfl, rfl⟩ := Prod.mk.inj (Option.some.inj h).symm
          have hq := decStep_false hs
          subst hq
          simp only [msum, List.map_cons, List.sum_cons, List.length_cons] at ihm ⊢
          omega

theorem partitionPairs_left_nonempty {u : ProveExpressionUnit} {tree l r : List (RPair F)}
    (h : partitionPairs u tree = some (l, r)) {p : RPair F} (hp : p ∈ tree)
    (hu : (slGet u p.1).isSome) : 1 ≤ l.length := by
  induction tree generalizing l r with
  | nil => exact absurd hp (List.not_mem_nil p)
  | cons p0 t ih =>
    rw [partitionPairs_cons] at h
    rcases hs : decStep u p0 with _ | ⟨b, q⟩ <;> rw [hs] at h
    · simp at h
    · rcases hpp : partitionPairs u t with _ | ⟨l', r'⟩ <;> rw [hpp] at h
      · simp at h
      · cases b with
        | true =>
          simp only [if_true] at h
          obtain ⟨rfl, rfl⟩ := Prod.mk.inj (Option.some.inj h).symm
          simp
        | false =>
          simp only [Bool.false_eq_true, if_false] at h
          obtain ⟨rfl, rfl⟩ := Prod.mk.inj (Option.some.inj h).symm
          rcases List.mem_cons.1 hp with rfl | hpt
          · exact absurd ((decStep_isSome_flag hs).1 hu) (by simp)
          · exact ih hpp hpt

theorem key_mem_slInsertWith {K V : Type} [LinearOrder K] {c : V → V → V} {k0 : K}
    {v : V} {L : List (K × V)} {k : K}
    (h : k ∈ (slInsertWith c k0 v L).map Prod.fst) : k = k0 ∨ k ∈ L.map Prod.fst := by
  rcases List.mem_map.1 h with ⟨q, hq, rfl⟩
  rcases mem_key_of_mem_slInsertWith hq with h' | ⟨p, hp, h'⟩
  · exact Or.inl h'
  · exact Or.inr (h' ▸ List.mem_map_of_mem Prod.fst hp)

theorem val_mem_slInsertWith {K V : Type} [LinearOrder K] {c : V → V → V} {k0 : K}
    {v : V} {L : List (K × V)} {q : K × V}
    (h : q ∈ slInsertWith c k0 v L) : q.2 = v ∨ (∃ w ∈ L, q.2 = c v w.2) ∨ q ∈ L := by
  induction L with
  | nil =>
    rw [slInsertWith_nil, List.mem_singleton] at h
    exact Or.inl (by rw [h])
  | cons p t ih =>
    rcases lt_trichotomy k0 p.1 with h1 | h1 | h1
    · rw [slInsertWith_cons_lt h1, List.mem_cons, List.mem_cons] at h
      rcases h with h | h | h
      · exact Or.inl (by rw [h])
      · exact Or.inr (Or.inr (List.mem_cons.2 (Or.inl h)))
      · exact Or.inr (Or.inr (List.mem_cons.2 (Or.inr h)))
    · rw [slInsertWith_cons_eq h1, List.mem_cons] at h
      rcases h with h | h
      · exact Or.inr (Or.inl ⟨p, List.mem_cons_self p t, by rw [h]⟩)
      · exact Or.inr (Or.inr (List.mem_cons.2 (Or.inr h)))
    · rw [slInsertWith_cons_gt h1, List.mem_cons] at h
      rcases h with h | h
      · exact Or.inr (Or.inr (List.mem_cons.2 (Or.inl h)))
      · rcases ih h with h' | ⟨w, hw, h'⟩ | h'
        · exact Or.inl h'
        · exact Or.inr (Or.inl ⟨w, List.mem_cons_of_mem p hw, h'⟩)
        · exact Or.inr (Or.inr (List.mem_cons.2 (Or.inr h')))

theorem countTree_inner_keys {m : List (ProveExpressionUnit × ℕ)}
    {us : List (ProveExpressionUnit × ℕ)} {k : ProveExpressionUnit}
    (h : k ∈ (us.foldl (fun m q => slInsertWith (fun a b => a + b) q.1 1 m) m).map Prod.fst) :
    k ∈ m.map Prod.fst ∨ k ∈ us.map Prod.fst := by
  induction us generalizing m with
  | nil => exact Or.inl h
  | cons q t ih =>
    rw [List.foldl_cons] at h
    rcases ih h with h' | h'
    · rcases key_mem_slInsertWith h' with h'' | h''
      · exact Or.inr (List.mem_cons.2 (Or.inl h''))
      · exact Or.inl h''
    · exact Or.inr (List.mem_cons.2 (Or.inr h'))

theorem countTree_keys {tree : List (RPair F)} {k : ProveExpressionUnit}
    (h : k ∈ (countTree tree).map Prod.fst) :
    ∃ p ∈ tree, k ∈ p.1.map Prod.fst := by
  unfold countTree at h
  suffices hgen : ∀ (m : List (ProveExpressionUnit × ℕ)),
      k ∈ (List.foldl
        (fun m p => p.1.foldl (fun m q => slInsertWith (fun a b => a + b) q.1 1 m) m)
          m tree).map Prod.fst →
      k ∈ m.map Prod.fst ∨ ∃ p ∈ tree, k ∈ p.1.map Prod.fst by
    rcases hgen [] h with h' | h'
    · simp at h'
    · exact h'
  clear h
  induction tree with
  | nil => intro m h; exact Or.inl h
  | cons p t ih =>
    intro m h
    rw [List.foldl_cons] at h
    rcases ih _ h with h' | ⟨p', hp', h''⟩
    · rcases countTree_inner_keys h' with h'' | h''
      · exact Or.inl h''
      · exact Or.inr ⟨p, List.mem_cons_self p t, h''⟩
    · exact Or.inr ⟨p', List.mem_cons_of_mem p hp', h''⟩

theorem countTree_inner_vals {m : List (ProveExpressionUnit × ℕ)}
    {us : List (ProveExpressionUnit × ℕ)}
    (hm : ∀ q ∈ m, 1 ≤ q.2) :
    ∀ q ∈ us.foldl (fun m q => slInsertWith (fun a b => a + b) q.1 1 m) m, 1 ≤ q.2 := by
  induction us generalizing m with
  | nil => exact hm
  | cons x t ih =>
    rw [List.foldl_cons]
    refine ih ?_
    intro q hq
    rcases val_mem_slInsertWith hq with h' | ⟨w, hw, h'⟩ | h'
    · omega
    · have := hm w hw
      omega
    · exact hm q h'

theorem countTree_vals {tree : List (RPair F)} :
    ∀ q ∈ countTree tree, 1 ≤ q.2 := by
  unfold countTree
  suffices hgen : ∀ (m : List (ProveExpressionUnit × ℕ)), (∀ q ∈ m, 1 ≤ q.2) →
      ∀ q ∈ List.foldl
        (fun m p => p.1.foldl (fun m q => slInsertWith (fun a b => a + b) q.1 1 m) m) m tree,
        1 ≤ q.2 by
    exact hgen [] (by simp)
  induction tree with
  | nil => intro m hm; exact hm
  | cons p t ih =>
    intro m hm
    rw [List.foldl_cons]
    exact ih _ (countTree_inner_vals hm)

theorem selectMaxFromC_ge (cm : List (ProveExpressionUnit × ℕ))
    (u : ProveExpressionUnit) (c : ℕ) :
    c ≤ (selectMaxFromC u c cm).2 ∧ ∀ q ∈ cm, q.2 ≤ (selectMaxFromC u c cm).2 := by
  induction cm generalizing u c with
  | nil => simp [selectMaxFromC]
  | cons p t ih =>
    unfold selectMaxFromC
    by_cases h : c < p.2
    · rw [if_pos h]
      rcases ih p.1 p.2 with ⟨h1, h2⟩
      refine ⟨le_of_lt (lt_of_lt_of_le h h1), ?_⟩
      intro q hq
      rcases List.mem_cons.1 hq with rfl | hq
      · exact h1
      · exact h2 q hq
    · rw [if_neg h]
      rcases ih u c with ⟨h1, h2⟩
      refine ⟨h1, ?_⟩
      intro q hq
      rcases List.mem_cons.1 hq with rfl | hq
      · omega
      · exact h2 q hq

theorem selectMaxFromC_mem (cm : List (ProveExpressionUnit × ℕ))
    (u : ProveExpressionUnit) (c : ℕ) :
    selectMaxFromC u c cm = (u, c) ∨
      (selectMaxFromC u c cm ∈ cm ∧ c < (selectMaxFromC u c cm).2) := by
  induction cm generalizing u c with
  | nil => exact Or.inl rfl
  | cons p t ih =>
    unfold selectMaxFromC
    by_cases h : c < p.2
    · rw [if_pos h]
      rcases ih p.1 p.2 with h' | ⟨h', hlt⟩
      · refine Or.inr ⟨List.mem_cons.2 (Or.inl ?_), ?_⟩
        · rw [h']
        · rw [h']
          exact h
      · exact Or.inr ⟨List.mem_cons.2 (Or.inr h'), lt_trans h hlt⟩
    · rw [if_neg h]
      rcases ih u c with h' | ⟨h', hlt⟩
      · exact Or.inl h'
      · exact Or.inr ⟨List.mem_cons.2 (Or.inr h'), hlt⟩

/-- Units referenced by the chosen maximum occur in some pair of the tree:
the combination of facts needed both for termination and for safety. -/
theorem selectMax_exists_pair {tree : List (RPair F)}
    {u0 : ProveExpressionUnit} {c0 : ℕ} {rest : List (ProveExpressionUnit × ℕ)}
    (hm : countTree tree = (u0, c0) :: rest) :
    ∃ p ∈ tree, (slGet (selectMaxFromC u0 0 ((u0, c0) :: rest)).1 p.1).isSome := by
  have hc0 : 1 ≤ c0 := by
    have := @countTree_vals _ tree (u0, c0) (hm ▸ List.mem_cons_self _ _)
    exact this
  have hge := (selectMaxFromC_ge ((u0, c0) :: rest) u0 0).2 (u0, c0)
    (List.mem_cons_self _ _)
  rcases selectMaxFromC_mem ((u0, c0) :: rest) u0 0 with h' | ⟨h', hlt⟩
  · rw [h'] at hge
    omega
  · have hkey : (selectMaxFromC u0 0 ((u0, c0) :: rest)).1 ∈ (countTree tree).map Prod.fst := by
      rw [hm]
      exact List.mem_map_of_mem Prod.fst h'
    rcases countTree_keys hkey with ⟨p, hp, hk⟩
    exact ⟨p, hp, slGet_isSome_iff.2 hk⟩

/-- Rust `ProveExpression::_reconstruct` (lines 528-587): greedy
most-frequent-unit factoring.  `none` models the two panics
(`first_entry().unwrap()` on an empty count map; `u32` underflow `c - 1`). -/
def _reconstruct : List (RPair F) → Option (ProveExpression F)
  | [p] => some (__reconstruct p.1 p.2)
  | tree =>
    match hm : countTree tree with
    | [] => none
    | (u0, c0) :: rest =>
      match hp : partitionPairs (selectMaxFromC u0 0 ((u0, c0) :: rest)).1 tree with
      | none => none
      | some (l, r) =>
        match _reconstruct l with
        | none => none
        | some lt =>
          if r.length = 0 then
            some (.Product (.Unit (selectMaxFromC u0 0 ((u0, c0) :: rest)).1) lt)
          else
            match _reconstruct r with
            | none => none
            | some rt =>
              some (.Sum (.Product (.Unit (selectMaxFromC u0 0 ((u0, c0) :: rest)).1) lt) rt)
termination_by tree => 2 * msum tree + tree.length
decreasing_by
  all_goals
    rcases selectMax_exists_pair hm with ⟨p, hpm, hpu⟩
  all_goals
    have hlen := partitionPairs_left_nonempty hp hpm hpu
  all_goals
    rcases partitionPairs_msum hp with ⟨h1, h2⟩
  all_goals omega

/-- Rust `ProveExpression::reconstruct` (lines 589-606): convert each monomial
key into a unit-multiplicity map, then run `_reconstruct`. -/
def toCountMap (us : List ProveExpressionUnit) : List (ProveExpressionUnit × ℕ) :=
  us.foldl (fun m u => slInsertWith (fun a b => a + b) u 1 m) []

/-- Entry point for reconstruction. -/
def reconstruct (tree : List (List ProveExpressionUnit × List (ℕ × F))) :
    Option (ProveExpression F) :=
  _reconstruct (tree.map (fun p => (toCountMap p.1, p.2)))

end ProveExpression

/-! ### Evaluation and safety of reconstruction -/

namespace ProveExpression

variable {F : Type} [CommRing F]

/-- Value of a multiplicity map (product of unit values raised to counts). -/
def evalCount (asg : ProveExpressionUnit → F) (m : List (ProveExpressionUnit × ℕ)) : F :=
  (m.map (fun q => asg q.1 ^ q.2)).prod

/-- Value of a `_reconstruct` input (sum over pairs). -/
def evalPairs (asg : ProveExpressionUnit → F) (y : F) (tree : List (RPair F)) : F :=
  (tree.map (fun p => evalCount asg p.1 * evalYs y p.2)).sum

/-- Well-formed multiplicity map: the BTreeMap invariant plus positivity of
the stored multiplicities (guaranteed on every path of the source). -/
def CMWF (m : List (ProveExpressionUnit × ℕ)) : Prop :=
  SKSorted m ∧ ∀ q ∈ m, 1 ≤ q.2

theorem eval____reconstruct (asg : ProveExpressionUnit → F) (y : F)
    (u : ProveExpressionUnit) (c : ℕ) (hc : 1 ≤ c) :
    evalPE asg y (____reconstruct u c) = asg u ^ c := by
  induction c with
  | zero => omega
  | succ c ih =>
    match c with
    | 0 => simp [____reconstruct, evalPE, pow_one]
    | c + 1 =>
      show evalPE asg y (.Product (.Unit u) (____reconstruct u (c + 1))) = _
      rw [show evalPE asg y (.Product (.Unit u) (____reconstruct u (c + 1))) =
        asg u * evalPE asg y (____reconstruct u (c + 1)) from rfl]
      rw [ih (by omega), ← pow_succ']

theorem eval__reconstruct (asg : ProveExpressionUnit → F) (y : F)
    (us : List (ProveExpressionUnit × ℕ)) (coeff : List (ℕ × F))
    (hus : ∀ q ∈ us, 1 ≤ q.2) :
    evalPE asg y (__reconstruct us coeff) = evalCount asg us * evalYs y coeff := by
  induction us with
  | nil => simp [__reconstruct, evalPE, evalCount]
  | cons p t ih =>
    show evalPE asg y (.Product (__reconstruct t coeff) (____reconstruct p.1 p.2)) = _
    rw [show evalPE asg y (.Product (__reconstruct t coeff) (____reconstruct p.1 p.2)) =
      evalPE asg y (__reconstruct t coeff) * evalPE asg y (____reconstruct p.1 p.2) from rfl]
    rw [ih (fun q hq => hus q (List.mem_cons_of_mem p hq)),
      eval____reconstruct asg y p.1 p.2 (hus p (List.mem_cons_self p t))]
    simp only [evalCount, List.map_cons, List.prod_cons]
    ring

/-- The decrement applied to a multiplicity map containing the chosen unit. -/
def decKey (u : ProveExpressionUnit) (m : List (ProveExpressionUnit × ℕ)) :
    List (ProveExpressionUnit × ℕ) :=
  match slGet u m with
  | some 1 => slRemove u m
  | some (c + 2) => slInsert u (c + 1) (slRemove u m)
  | _ => m

theorem decStep_true_char {u : ProveExpressionUnit} {p q : RPair F}
    (h : decStep u p = some (true, q)) : q = (decKey u p.1, p.2) := by
  unfold decStep at h
  split at h
  · simp at h
  · rename_i hg
    simp only [Option.some.injEq, Prod.mk.injEq, true_and] at h
    rw [← h]
    unfold decKey
    rw [hg]
  · simp at h
  · rename_i c hg
    simp only [Option.some.injEq, Prod.mk.injEq, true_and] at h
    rw [← h]
    unfold decKey
    rw [hg]

/-- Characterization of the partition loop when it succeeds: the left list is
the decremented image of the pairs mentioning the unit, in order, and the
right list collects the others, in order. -/
theorem partitionPairs_char {u : ProveExpressionUnit} {tree l r : List (RPair F)}
    (h : partitionPairs u tree = some (l, r)) :
    l = (tree.filter (fun p => (slGet u p.1).isSome)).map (fun p => (decKey u p.1, p.2)) ∧
    r = tree.filter (fun p => !(slGet u p.1).isSome) := by
  induction tree generalizing l r with
  | nil =>
    rw [partitionPairs_nil] at h
    obtain ⟨rfl, rfl⟩ := Prod.mk.inj (Option.some.inj h).symm
    simp
  | cons p t ih =>
    rw [partitionPairs_cons] at h
    rcases hs : decStep u p with _ | ⟨b, q⟩ <;> rw [hs] at h
    · simp at h
    · rcases hp : partitionPairs u t with _ | ⟨l', r'⟩ <;> rw [hp] at h
      · simp at h
      · rcases ih hp with ⟨ihl, ihr⟩
        cases b with
        | true =>
          simp only [if_true] at h
          obtain ⟨rfl, rfl⟩ := Prod.mk.inj (Option.some.inj h).symm
          have hsome : (slGet u p.1).isSome = true := (decStep_isSome_flag hs).2 rfl
          constructor
          · simp only [List.filter_cons, hsome, if_true, List.map_cons]
            rw [← ihl, decStep_true_char hs]
          · simp only [List.filter_cons, hsome, Bool.not_true, Bool.false_eq_true, if_false]
            exact ihr
        | false =>
          simp only [Bool.false_eq_true, if_false] at h
          obtain ⟨rfl, rfl⟩ := Prod.mk.inj (Option.some.inj h).symm
          have hnone : ¬(slGet u p.1).isSome := by
            intro hcon
            exact absurd ((decStep_isSome_flag hs).1 hcon) (by simp)
          have hqp := decStep_false hs
          subst hqp
          have hsome : (slGet u q.1).isSome = false := by
            simpa using hnone
          constructor
          · simp only [List.filter_cons, hsome, Bool.false_eq_true, if_false]
            exact ihl
          · simp only [List.filter_cons, hsome, Bool.not_false, if_true]
            rw [ihr]

/-- When every pair's stored multiplicity is positive, the partition loop
cannot hit the underflow branch. -/
theorem partitionPairs_isSome {u : ProveExpressionUnit} {tree : List (RPair F)}
    (hwf : ∀ p ∈ tree, ∀ q ∈ p.1, 1 ≤ q.2) :
    (partitionPairs u tree).isSome := by
  induction tree with
  | nil => rw [partitionPairs_nil]; rfl
  | cons p t ih =>
    rw [partitionPairs_cons]
    have hstep : (decStep u p).isSome := by
      unfold decStep
      rcases hg : slGet u p.1 with _ | c
      · rfl
      · have := hwf p (List.mem_cons_self p t) (u, c) (slGet_mem hg)
        match c with
        | 0 => exact absurd this (by omega)
        | 1 => rfl
        | c + 2 => rfl
    rcases hs : decStep u p with _ | ⟨b, q⟩
    · rw [hs] at hstep; exact absurd hstep (by simp)
    · have ht := ih (fun p' hp' => hwf p' (List.mem_cons_of_mem p hp'))
      rcases hp : partitionPairs u t with _ | ⟨l', r'⟩
      · rw [hp] at ht; exact absurd ht (by simp)
      · cases b <;> simp

theorem evalCount_slRemove (asg : ProveExpressionUnit → F)
    {u : ProveExpressionUnit} {c : ℕ} {m : List (ProveExpressionUnit × ℕ)}
    (h : slGet u m = some c) :
    evalCount asg m = asg u ^ c * evalCount asg (slRemove u m) := by
  induction m with
  | nil => exact absurd h (by simp [slGet])
  | cons p t ih =>
    by_cases h1 : u = p.1
    · rw [h1, slGet_cons_self] at h
      rw [slRemove_cons_eq h1]
      have : p.2 = c := Option.some.inj h
      simp only [evalCount, List.map_cons, List.prod_cons]
      rw [← this, h1]
    · rw [slGet_cons_ne _ h1] at h
      rw [slRemove_cons_ne h1]
      have ihh := ih h
      simp only [evalCount] at ihh ⊢
      simp only [List.map_cons, List.prod_cons]
      rw [ihh]
      ring

theorem evalCount_slInsert_notmem (asg : ProveExpressionUnit → F)
    {k : ProveExpressionUnit} (v : ℕ) {M : List (ProveExpressionUnit × ℕ)}
    (h : slGet k M = none) :
    evalCount asg (slInsert k v M) = asg k ^ v * evalCount asg M := by
  induction M with
  | nil => simp [slInsert, slInsertWith_nil, evalCount]
  | cons p t ih =>
    rcases lt_trichotomy k p.1 with h1 | h1 | h1
    · rw [slInsert, slInsertWith_cons_lt h1]
      simp [evalCount]
    · rw [h1, slGet_cons_self] at h
      exact absurd h (by simp)
    · have hne : k ≠ p.1 := (ne_of_lt h1).symm
      rw [slGet_cons_ne _ hne] at h
      rw [slInsert, slInsertWith_cons_gt h1]
      rw [slInsert] at ih
      have ihh := ih h
      simp only [evalCount] at ihh ⊢
      simp only [List.map_cons, List.prod_cons]
      rw [ihh]
      ring

theorem decKey_evalCount (asg : ProveExpressionUnit → F)
    {u : ProveExpressionUnit} {c : ℕ} {m : List (ProveExpressionUnit × ℕ)}
    (hs : SKSorted m) (h : slGet u m = some c) (hc : 1 ≤ c) :
    asg u * evalCount asg (decKey u m) = evalCount asg m := by
  unfold decKey
  rw [h]
  match c with
  | 1 =>
    rw [evalCount_slRemove asg h]
    ring
  | c + 2 =>
    have hrem : slGet u (slRemove u m) = none := by
      rw [slGet_slRemove u hs u, if_pos rfl]
    rw [evalCount_slInsert_notmem asg (c + 1) hrem, evalCount_slRemove asg h]
    rw [← mul_assoc, ← pow_succ']
    
theorem CMWF_decKey {u : ProveExpressionUnit} {m : List (ProveExpressionUnit × ℕ)}
    (hm : CMWF m) : CMWF (decKey u m) := by
  rcases hm with ⟨hs, hv⟩
  unfold decKey
  rcases hg : slGet u m with _ | c
  · exact ⟨hs, hv⟩
  · match c with
    | 0 => exact ⟨hs, hv⟩
    | 1 =>
      refine ⟨SKSorted_slRemove u hs, ?_⟩
      intro q hq
      exact hv q (List.Sublist.mem hq (slRemove_sublist u m))
    | c + 2 =>
      refine ⟨SKSorted_slInsertWith _ _ _ (SKSorted_slRemove u hs), ?_⟩
      intro q hq
      rcases val_mem_slInsertWith hq with h' | ⟨w, hw, h'⟩ | h'
      · omega
      · omega
      · exact hv q (List.Sublist.mem h' (slRemove_sublist u m))

theorem decKey_slGet {u : ProveExpressionUnit} {c : ℕ} {m : List (ProveExpressionUnit × ℕ)}
    (hs : SKSorted m) (h : slGet u m = some c) (hc : 1 ≤ c) (w : ProveExpressionUnit) :
    slGet w (decKey u m) =
      if w = u then (if c = 1 then none else some (c - 1)) else slGet w m := by
  unfold decKey
  rw [h]
  match c with
  | 1 =>
    show slGet w (slRemove u m) = _
    rw [slGet_slRemove u hs w]
    by_cases hw : w = u <;> simp [hw]
  | c + 2 =>
    show slGet w (slInsert u (c + 1) (slRemove u m)) = _
    rw [slInsert, slGet_slInsertWith _ _ _ (SKSorted_slRemove u hs) w]
    have hrem : slGet u (slRemove u m) = none := by
      rw [slGet_slRemove u hs u, if_pos rfl]
    by_cases hw : w = u
    · rw [if_pos hw, if_pos hw, hrem]
      simp
    · rw [if_neg hw, if_neg hw, slGet_slRemove u hs w, if_neg hw]

theorem decKey_inj {u : ProveExpressionUnit} {m1 m2 : List (ProveExpressionUnit × ℕ)}
    {c1 c2 : ℕ} (h1 : CMWF m1) (h2 : CMWF m2)
    (hg1 : slGet u m1 = some c1) (hg2 : slGet u m2 = some c2)
    (heq : decKey u m1 = decKey u m2) : m1 = m2 := by
  have hc1 : 1 ≤ c1 := h1.2 (u, c1) (slGet_mem hg1)
  have hc2 : 1 ≤ c2 := h2.2 (u, c2) (slGet_mem hg2)
  refine slGet_ext h1.1 h2.1 ?_
  intro w
  have e1 := decKey_slGet h1.1 hg1 hc1 w
  have e2 := decKey_slGet h2.1 hg2 hc2 w
  rw [heq] at e1
  by_cases hw : w = u
  · rw [if_pos hw] at e1 e2
    rw [hw, hg1, hg2]
    by_cases hone : c1 = 1
    · rw [if_pos hone] at e1
      by_cases hone2 : c2 = 1
      · rw [hone, hone2]
      · rw [if_neg hone2] at e2
        rw [e2] at e1
        exact absurd e1 (by simp)
    · rw [if_neg hone] at e1
      by_cases hone2 : c2 = 1
      · rw [if_pos hone2] at e2
        rw [e2] at e1
        exact absurd e1 (by simp)
      · rw [if_neg hone2] at e2
        rw [e2] at e1
        have := Option.some.inj e1
        have : c1 = c2 := by omega
        rw [this]
  · rw [if_neg hw] at e1 e2
    rw [← e1, ← e2]

theorem evalPairs_split (asg : ProveExpressionUnit → F) (y : F)
    (u : ProveExpressionUnit) (tree : List (RPair F))
    (hwf : ∀ p ∈ tree, CMWF p.1) :
    asg u * evalPairs asg y
        ((tree.filter (fun p => (slGet u p.1).isSome)).map (fun p => (decKey u p.1, p.2))) +
      evalPairs asg y (tree.filter (fun p => !(slGet u p.1).isSome)) =
    evalPairs asg y tree := by
  induction tree with
  | nil => simp [evalPairs]
  | cons p t ih =>
    have ihh := ih (fun q hq => hwf q (List.mem_cons_of_mem p hq))
    rcases hg : slGet u p.1 with _ | c
    · have hsome : (slGet u p.1).isSome = false := by rw [hg]; rfl
      simp only [List.filter_cons, hsome, Bool.false_eq_true, if_false, Bool.not_false,
        if_true]
      simp only [evalPairs, List.map_cons, List.sum_cons] at ihh ⊢
      rw [← ihh]
      ring
    · have hsome : (slGet u p.1).isSome = true := by rw [hg]; rfl
      have hc : 1 ≤ c := (hwf p (List.mem_cons_self p t)).2 (u, c) (slGet_mem hg)
      simp only [List.filter_cons, hsome, if_true, Bool.not_true, Bool.false_eq_true,
        if_false, List.map_cons]
      simp only [evalPairs, List.map_cons, List.sum_cons] at ihh ⊢
      rw [← ihh, ← decKey_evalCount asg (hwf p (List.mem_cons_self p t)).1 hg hc]
      ring

theorem foldl_preserves_ne_nil {A B : Type} {step : List B → A → List B}
    (hstep : ∀ m a, m ≠ [] → step m a ≠ []) (us : List A) :
    ∀ {m : List B}, m ≠ [] → us.foldl step m ≠ [] := by
  induction us with
  | nil => intro m hm; exact hm
  | cons a t ih =>
    intro m hm
    rw [List.foldl_cons]
    exact ih (hstep m a hm)

theorem inner_count_fold_ne_nil (us : List (ProveExpressionUnit × ℕ)) :
    ∀ (m : List (ProveExpressionUnit × ℕ)), m ≠ [] ∨ us ≠ [] →
      us.foldl (fun m q => slInsertWith (fun a b => a + b) q.1 1 m) m ≠ [] := by
  induction us with
  | nil =>
    intro m hm
    rcases hm with hm | hm
    · exact hm
    · exact absurd rfl hm
  | cons x t ih =>
    intro m hm
    rw [List.foldl_cons]
    exact ih _ (Or.inl (slInsertWith_ne_nil _ _ _ _))

theorem countTree_ne_nil {tree : List (RPair F)} {p0 : RPair F}
    (hmem : p0 ∈ tree) (hne : p0.1 ≠ []) : countTree tree ≠ [] := by
  unfold countTree
  suffices hgen : ∀ (m : List (ProveExpressionUnit × ℕ)),
      m ≠ [] ∨ (∃ p ∈ tree, p.1 ≠ []) →
      List.foldl
        (fun m p => p.1.foldl (fun m q => slInsertWith (fun a b => a + b) q.1 1 m) m)
        m tree ≠ [] by
    exact hgen [] (Or.inr ⟨p0, hmem, hne⟩)
  clear hmem hne
  induction tree with
  | nil =>
    intro m hm
    rcases hm with hm | ⟨p, hp, _⟩
    · exact hm
    · exact absurd hp (List.not_mem_nil p)
  | cons p t ih =>
    intro m hm
    rw [List.foldl_cons]
    rcases hm with hm | ⟨q, hq, hqne⟩
    · exact ih _ (Or.inl (inner_count_fold_ne_nil p.1 m (Or.inl hm)))
    · rcases List.mem_cons.1 hq with rfl | hq'
      · exact ih _ (Or.inl (inner_count_fold_ne_nil q.1 m (Or.inr hqne)))
      · exact ih _ (Or.inr ⟨q, hq', hqne⟩)

theorem _reconstruct_single (p : RPair F) :
    _reconstruct [p] = some (__reconstruct p.1 p.2) := by
  rw [_reconstruct.eq_def]

theorem _reconstruct_step {a b : RPair F} {rest : List (RPair F)}
    {u0 : ProveExpressionUnit} {c0 : ℕ} {cm : List (ProveExpressionUnit × ℕ)}
    (hm : countTree (a :: b :: rest) = (u0, c0) :: cm)
    {l r : List (RPair F)}
    (hp : partitionPairs (selectMaxFromC u0 0 ((u0, c0) :: cm)).1 (a :: b :: rest) =
      some (l, r)) :
    _reconstruct (a :: b :: rest) =
      match _reconstruct l with
      | none => none
      | some lt =>
        if r.length = 0 then
          some (.Product (.Unit (selectMaxFromC u0 0 ((u0, c0) :: cm)).1) lt)
        else match _reconstruct r with
          | none => none
          | some rt =>
            some (.Sum (.Product (.Unit (selectMaxFromC u0 0 ((u0, c0) :: cm)).1) lt) rt) := by
  rw [_reconstruct.eq_def]
  split
  · rename_i p hcon
    simp at hcon
  · split
    · rename_i hnil
      rw [hnil] at hm
      exact absurd hm (by simp)
    · rename_i u0' c0' rest' hm'
      rw [hm'] at hm
      have h1 := List.head_eq_of_cons_eq hm
      have h2 := List.tail_eq_of_cons_eq hm
      obtain ⟨rfl, rfl⟩ := Prod.mk.inj h1
      subst h2
      split
      · rename_i hcon
        rw [hcon] at hp
        exact absurd hp (by simp)
      · rename_i l' r' hp'
        rw [hp'] at hp
        obtain ⟨rfl, rfl⟩ := Prod.mk.inj (Option.some.inj hp)
        rfl

theorem _reconstruct_step_some {a b : RPair F} {rest : List (RPair F)}
    {u0 : ProveExpressionUnit} {c0 : ℕ} {cm : List (ProveExpressionUnit × ℕ)}
    (hm : countTree (a :: b :: rest) = (u0, c0) :: cm)
    {l r : List (RPair F)}
    (hp : partitionPairs (selectMaxFromC u0 0 ((u0, c0) :: cm)).1 (a :: b :: rest) =
      some (l, r))
    {lt : ProveExpression F} (htl : _reconstruct l = some lt) :
    _reconstruct (a :: b :: rest) =
      if r.length = 0 then
        some (.Product (.Unit (selectMaxFromC u0 0 ((u0, c0) :: cm)).1) lt)
      else (_reconstruct r).map
        (fun rt => .Sum (.Product (.Unit (selectMaxFromC u0 0 ((u0, c0) :: cm)).1) lt) rt) := by
  rw [_reconstruct_step hm hp, htl]
  show (if r.length = 0 then
      some (Product (Unit (selectMaxFromC u0 0 ((u0, c0) :: cm)).1) lt)
    else match _reconstruct r with
      | none => none
      | some rt =>
        some (Sum (Product (Unit (selectMaxFromC u0 0 ((u0, c0) :: cm)).1) lt) rt)) = _
  by_cases h0 : r.length = 0
  · rw [if_pos h0, if_pos h0]
  · rw [if_neg h0, if_neg h0]
    cases _reconstruct r <;> rfl

/-- Success and evaluation of `_reconstruct` on well-formed nonempty input:
it yields an expression whose value is the sum over the pairs. -/
theorem _reconstruct_sound :
    ∀ (n : ℕ) (tree : List (RPair F)), 2 * msum tree + tree.length ≤ n →
      (∀ p ∈ tree, CMWF p.1) → List.Pairwise (fun p q => p.1 ≠ q.1) tree → tree ≠ [] →
      ∃ t, _reconstruct tree = some t ∧
        ∀ asg y, evalPE asg y t = evalPairs asg y tree := by
  intro n
  induction n with
  | zero =>
    intro tree hn _ _ hne
    cases tree with
    | nil => exact absurd rfl hne
    | cons a t => simp at hn
  | succ n ih =>
    intro tree hn hwf hpw hne
    match tree with
    | [] => exact absurd rfl hne
    | [p] =>
      refine ⟨__reconstruct p.1 p.2, _reconstruct_single p, ?_⟩
      intro asg y
      rw [eval__reconstruct asg y p.1 p.2 (fun q hq => (hwf p (by simp)).2 q hq)]
      simp [evalPairs]
    | a :: b :: rest =>
      have hex : ∃ p ∈ (a :: b :: rest), p.1 ≠ [] := by
        by_cases ha : a.1 = []
        · have hab : a.1 ≠ b.1 := (List.pairwise_cons.1 hpw).1 b (List.mem_cons_self b rest)
          exact ⟨b, by simp, fun hb => hab (by rw [ha, hb])⟩
        · exact ⟨a, by simp, ha⟩
      rcases hex with ⟨p0, hp0, hp0ne⟩
      have hcne := countTree_ne_nil hp0 hp0ne
      rcases hcm : countTree (a :: b :: rest) with _ | ⟨⟨u0, c0⟩, cm⟩
      · exact absurd hcm hcne
      have hvals : ∀ p ∈ (a :: b :: rest), ∀ q ∈ p.1, 1 ≤ q.2 :=
        fun p hp q hq => (hwf p hp).2 q hq
      have hpsome := partitionPairs_isSome
        (u := (selectMaxFromC u0 0 ((u0, c0) :: cm)).1) hvals
      rcases hp : partitionPairs (selectMaxFromC u0 0 ((u0, c0) :: cm)).1 (a :: b :: rest)
        with _ | ⟨l, r⟩
      · rw [hp] at hpsome; exact absurd hpsome (by simp)
      rcases selectMax_exists_pair hcm with ⟨pw, hpwmem, hpwu⟩
      have hllen : 1 ≤ l.length := partitionPairs_left_nonempty hp hpwmem hpwu
      rcases partitionPairs_msum hp with ⟨hms, hlen⟩
      rcases partitionPairs_char hp with ⟨hcl, hcr⟩
      -- well-formedness of the partition results
      have hwfl : ∀ p ∈ l, CMWF p.1 := by
        intro p hpl
        rw [hcl] at hpl
        rcases List.mem_map.1 hpl with ⟨q, hq, rfl⟩
        exact CMWF_decKey (hwf q (List.mem_of_mem_filter hq))
      have hwfr : ∀ p ∈ r, CMWF p.1 := by
        intro p hpr
        rw [hcr] at hpr
        exact hwf p (List.mem_of_mem_filter hpr)
      have hpwl : List.Pairwise (fun p q : RPair F => p.1 ≠ q.1) l := by
        rw [hcl]
        rw [List.pairwise_map]
        have hfil : List.Pairwise (fun p q : RPair F => p.1 ≠ q.1)
            ((a :: b :: rest).filter (fun p => (slGet (selectMaxFromC u0 0 ((u0, c0) :: cm)).1 p.1).isSome)) :=
          List.Pairwise.sublist (List.filter_sublist _) hpw
        refine List.Pairwise.imp_of_mem ?_ hfil
        intro p q hpmem hqmem hne heq
        have hps := (List.mem_filter.1 hpmem).2
        have hqs := (List.mem_filter.1 hqmem).2
        rcases Option.isSome_iff_exists.1 hps with ⟨cp, hcp⟩
        rcases Option.isSome_iff_exists.1 hqs with ⟨cq, hcq⟩
        exact hne (decKey_inj (hwf p (List.mem_of_mem_filter hpmem))
          (hwf q (List.mem_of_mem_filter hqmem)) hcp hcq heq)
      have hpwr : List.Pairwise (fun p q : RPair F => p.1 ≠ q.1) r := by
        rw [hcr]
        exact List.Pairwise.sublist (List.filter_sublist _) hpw
      have hlne : l ≠ [] := by
        intro hcon
        rw [hcon] at hllen
        simp at hllen
      -- measure bookkeeping
      have hmeasl : 2 * msum l + l.length ≤ n := by
        simp only [List.length_cons] at hn hlen
        omega
      rcases ih l hmeasl hwfl hpwl hlne with ⟨tl, htl, hevall⟩
      cases r with
      | nil =>
        rw [_reconstruct_step_some hcm hp htl, if_pos (by simp)]
        refine ⟨_, rfl, ?_⟩
        intro asg y
        have hsplit := evalPairs_split asg y (selectMaxFromC u0 0 ((u0, c0) :: cm)).1
          (a :: b :: rest) hwf
        rw [← hcl, ← hcr] at hsplit
        show asg (selectMaxFromC u0 0 ((u0, c0) :: cm)).1 * evalPE asg y tl = _
        rw [hevall, ← hsplit]
        simp [evalPairs]
      | cons r0 rt =>
        have hrne : r0 :: rt ≠ [] := by simp
        have hmeasr : 2 * msum (r0 :: rt) + (r0 :: rt).length ≤ n := by
          simp only [List.length_cons] at hn hlen ⊢
          omega
        rcases ih (r0 :: rt) hmeasr hwfr hpwr hrne with ⟨tr, htr, hevalr⟩
        rw [_reconstruct_step_some hcm hp htl, if_neg (by simp), htr, Option.map_some']
        refine ⟨_, rfl, ?_⟩
        intro asg y
        have hsplit := evalPairs_split asg y (selectMaxFromC u0 0 ((u0, c0) :: cm)).1
          (a :: b :: rest) hwf
        rw [← hcl, ← hcr] at hsplit
        show asg (selectMaxFromC u0 0 ((u0, c0) :: cm)).1 * evalPE asg y tl +
          evalPE asg y tr = _
        rw [hevall, hevalr, ← hsplit]

end ProveExpression

/-! ### Structural invariants of flatten and the conversion to count maps -/

section FlattenInv

variable {K V : Type} [LinearOrder K]

theorem SKSorted_foldl {A : Type} (key : A → K) (val : A → V) (c : V → V → V)
    (us : List A) :
    ∀ {m : List (K × V)}, SKSorted m →
      SKSorted (us.foldl (fun m a => slInsertWith c (key a) (val a) m) m) := by
  induction us with
  | nil => intro m hm; exact hm
  | cons a t ih =>
    intro m hm
    rw [List.foldl_cons]
    exact ih (SKSorted_slInsertWith _ _ _ hm)

theorem keyprop_foldl {A : Type} (key : A → K) (val : A → V) (c : V → V → V)
    (P : K → Prop) (us : List A) :
    ∀ {m : List (K × V)}, (∀ q ∈ m, P q.1) → (∀ a ∈ us, P (key a)) →
      ∀ q ∈ us.foldl (fun m a => slInsertWith c (key a) (val a) m) m, P q.1 := by
  induction us with
  | nil => intro m hm _; exact hm
  | cons a t ih =>
    intro m hm hus
    rw [List.foldl_cons]
    refine ih ?_ (fun a' ha' => hus a' (List.mem_cons_of_mem a ha'))
    intro q hq
    rcases mem_key_of_mem_slInsertWith hq with h' | ⟨p, hp, h'⟩
    · rw [h']
      exact hus a (List.mem_cons_self a t)
    · rw [h']
      exact hm p hp

theorem valprop_foldl {A : Type} (key : A → K) (val : A → V) (c : V → V → V)
    (P : V → Prop) (hc : ∀ v w, P v → P w → P (c v w)) (us : List A) :
    ∀ {m : List (K × V)}, (∀ q ∈ m, P q.2) → (∀ a ∈ us, P (val a)) →
      ∀ q ∈ us.foldl (fun m a => slInsertWith c (key a) (val a) m) m, P q.2 := by
  induction us with
  | nil => intro m hm _; exact hm
  | cons a t ih =>
    intro m hm hus
    rw [List.foldl_cons]
    refine ih ?_ (fun a' ha' => hus a' (List.mem_cons_of_mem a ha'))
    intro q hq
    rcases ProveExpression.val_mem_slInsertWith hq with h' | ⟨w, hw, h'⟩ | h'
    · rw [h']
      exact hus a (List.mem_cons_self a t)
    · rw [h']
      exact hc _ _ (hus a (List.mem_cons_self a t)) (hm w hw)
    · exact hm q h'

theorem foldl_ins_ne_nil {A : Type} (key : A → K) (val : A → V) (c : V → V → V)
    (us : List A) :
    ∀ (m : List (K × V)), m ≠ [] ∨ us ≠ [] →
      us.foldl (fun m a => slInsertWith c (key a) (val a) m) m ≠ [] := by
  induction us with
  | nil =>
    intro m hm
    rcases hm with hm | hm
    · exact hm
    · exact absurd rfl hm
  | cons a t ih =>
    intro m _
    rw [List.foldl_cons]
    exact ih _ (Or.inl (slInsertWith_ne_nil _ _ _ _))

end FlattenInv

namespace ProveExpression

variable {F : Type} [CommRing F]

/-- The canonical map produced by `flatten` is strictly key-sorted: it is the
faithful image of the Rust BTreeMap. -/
theorem flatten_sorted (e : ProveExpression F) : SKSorted (flatten e) := by
  induction e with
  | Unit u => exact List.pairwise_singleton _ _
  | Sum l r ihl ihr =>
    show SKSorted ((flatten r).foldl _ (flatten l))
    exact SKSorted_foldl Prod.fst Prod.snd _ (flatten r) ihl
  | Product l r ihl ihr =>
    show SKSorted ((flatten l).foldl _ [])
    have : ∀ (acc : List (List ProveExpressionUnit × List (ℕ × F))), SKSorted acc →
        ∀ (A : List (List ProveExpressionUnit × List (ℕ × F))),
        SKSorted (A.foldl
          (fun res pl =>
            (flatten r).foldl
              (fun res pr =>
                slInsertWith (fun new old => ys_add_assign old new)
                  ((pl.1 ++ pr.1).mergeSort (fun a b => a ≤ b)) (ys_mul pl.2 pr.2) res)
              res) acc) := by
      intro acc hacc A
      induction A generalizing acc with
      | nil => exact hacc
      | cons pl t ih =>
        rw [List.foldl_cons]
        exact ih _ (SKSorted_foldl
          (fun pr => (pl.1 ++ pr.1).mergeSort (fun a b => a ≤ b))
          (fun pr => ys_mul pl.2 pr.2) _ (flatten r) hacc)
    exact this [] SKSorted.nil (flatten l)
  | Y ys => exact List.pairwise_singleton _ _

/-- Every monomial key stored by `flatten` is a (non-strictly) sorted unit
list. -/
theorem flatten_keys_sorted (e : ProveExpression F) :
    ∀ p ∈ flatten e, List.Pairwise (fun a b : ProveExpressionUnit => a ≤ b) p.1 := by
  induction e with
  | Unit u =>
    intro p hp
    rcases List.mem_singleton.1 hp with rfl
    exact List.pairwise_singleton _ _
  | Sum l r ihl ihr =>
    intro p hp
    refine keyprop_foldl Prod.fst Prod.snd _
      (fun k => List.Pairwise (fun a b : ProveExpressionUnit => a ≤ b) k)
      (flatten r) ihl (fun a ha => ihr a ha) p hp
  | Product l r ihl ihr =>
    intro p hp
    have main : ∀ (acc : List (List ProveExpressionUnit × List (ℕ × F))),
        (∀ q ∈ acc, List.Pairwise (fun a b : ProveExpressionUnit => a ≤ b) q.1) →
        ∀ (A : List (List ProveExpressionUnit × List (ℕ × F))),
        ∀ q ∈ A.foldl
          (fun res pl =>
            (flatten r).foldl
              (fun res pr =>
                slInsertWith (fun new old => ys_add_assign old new)
                  ((pl.1 ++ pr.1).mergeSort (fun a b => a ≤ b)) (ys_mul pl.2 pr.2) res)
              res) acc,
          List.Pairwise (fun a b : ProveExpressionUnit => a ≤ b) q.1 := by
      intro acc hacc A
      induction A generalizing acc with
      | nil => exact hacc
      | cons pl t ih =>
        rw [List.foldl_cons]
        refine ih _ ?_
        refine keyprop_foldl
          (fun pr => (pl.1 ++ pr.1).mergeSort (fun a b => a ≤ b))
          (fun pr => ys_mul pl.2 pr.2) _ _ (flatten r) hacc ?_
        intro a _
        exact List.sorted_mergeSort' _
    exact main [] (by simp) (flatten l) p hp
  | Y ys =>
    intro p hp
    rcases List.mem_singleton.1 hp with rfl
    exact List.Pairwise.nil

/-- Flatten never yields the empty canonical map. -/
theorem flatten_ne_nil (e : ProveExpression F) : flatten e ≠ [] := by
  induction e with
  | Unit u => simp [flatten]
  | Sum l r ihl ihr =>
    show (flatten r).foldl _ (flatten l) ≠ []
    exact foldl_ins_ne_nil Prod.fst Prod.snd _ (flatten r) (flatten l) (Or.inl ihl)
  | Product l r ihl ihr =>
    show (flatten l).foldl _ [] ≠ []
    rcases hl : flatten l with _ | ⟨pl, t⟩
    · exact absurd hl ihl
    rw [List.foldl_cons]
    refine foldl_preserves_ne_nil ?_ t ?_
    · intro m pl' hm
      exact foldl_ins_ne_nil
        (fun pr => (pl'.1 ++ pr.1).mergeSort (fun a b => a ≤ b))
        (fun pr => ys_mul pl'.2 pr.2) _ (flatten r) m (Or.inl hm)
    · exact foldl_ins_ne_nil
        (fun pr => (pl.1 ++ pr.1).mergeSort (fun a b => a ≤ b))
        (fun pr => ys_mul pl.2 pr.2) _ (flatten r) [] (Or.inr ihr)
  | Y ys => simp [flatten]

/-- Combination of an existing optional count with a number of new increments. -/
def countOpt (n : ℕ) : Option ℕ → Option ℕ
  | none => if n = 0 then none else some n
  | some v => some (n + v)

theorem slGet_toCountMap_fold (w : ProveExpressionUnit) (us : List ProveExpressionUnit) :
    ∀ (m : List (ProveExpressionUnit × ℕ)), SKSorted m →
      slGet w (us.foldl (fun m u => slInsertWith (fun a b => a + b) u 1 m) m) =
        countOpt (us.count w) (slGet w m) := by
  induction us with
  | nil =>
    intro m hm
    rcases hg : slGet w m with _ | v <;> simp [countOpt, hg]
  | cons x t ih =>
    intro m hm
    rw [List.foldl_cons, ih _ (SKSorted_slInsertWith _ _ _ hm),
      slGet_slInsertWith _ _ _ hm w]
    by_cases hw : w = x
    · subst hw
      rw [if_pos rfl]
      rcases hg : slGet w m with _ | v
      · show countOpt (t.count w) (some 1) = countOpt ((w :: t).count w) none
        simp [countOpt, List.count_cons]
      · show countOpt (t.count w) (some (1 + v)) = countOpt ((w :: t).count w) (some v)
        simp only [countOpt, List.count_cons, beq_self_eq_true, if_true]
        exact congrArg some (by omega)
    · rw [if_neg hw]
      have hxw : ¬x = w := fun h => hw h.symm
      rcases hg : slGet w m with _ | v <;> simp [countOpt, List.count_cons, hxw]

theorem slGet_toCountMap (w : ProveExpressionUnit) (us : List ProveExpressionUnit) :
    slGet w (toCountMap us) = if us.count w = 0 then none else some (us.count w) := by
  unfold toCountMap
  rw [slGet_toCountMap_fold w us [] SKSorted.nil]
  rfl

theorem toCountMap_SKSorted (us : List ProveExpressionUnit) : SKSorted (toCountMap us) :=
  SKSorted_foldl id (fun _ => 1) _ us SKSorted.nil

theorem toCountMap_vals (us : List ProveExpressionUnit) :
    ∀ q ∈ toCountMap us, 1 ≤ q.2 := by
  refine valprop_foldl id (fun _ => 1) _ (fun v => 1 ≤ v) ?_ us (by simp) (by simp)
  intro v w hv hw
  omega

theorem toCountMap_CMWF (us : List ProveExpressionUnit) : CMWF (toCountMap us) :=
  ⟨toCountMap_SKSorted us, toCountMap_vals us⟩

theorem toCountMap_inj {us1 us2 : List ProveExpressionUnit}
    (h1 : List.Pairwise (fun a b : ProveExpressionUnit => a ≤ b) us1)
    (h2 : List.Pairwise (fun a b : ProveExpressionUnit => a ≤ b) us2)
    (heq : toCountMap us1 = toCountMap us2) : us1 = us2 := by
  have hcnt : ∀ u, us1.count u = us2.count u := by
    intro u
    have e1 := slGet_toCountMap u us1
    have e2 := slGet_toCountMap u us2
    rw [heq, e2] at e1
    by_cases hz1 : us1.count u = 0 <;> by_cases hz2 : us2.count u = 0
    · omega
    · rw [if_pos hz1, if_neg hz2] at e1
      exact absurd e1 (by simp)
    · rw [if_neg hz1, if_pos hz2] at e1
      exact absurd e1 (by simp)
    · rw [if_neg hz1, if_neg hz2] at e1
      have := Option.some.inj e1
      omega
  exact List.eq_of_perm_of_sorted (List.perm_iff_count.2 hcnt) h1 h2

theorem evalCount_slInsertWith_one (asg : ProveExpressionUnit → F)
    (u : ProveExpressionUnit) (m : List (ProveExpressionUnit × ℕ)) :
    evalCount asg (slInsertWith (fun a b => a + b) u 1 m) = asg u * evalCount asg m := by
  induction m with
  | nil => simp [slInsertWith_nil, evalCount]
  | cons p t ih =>
    rcases lt_trichotomy u p.1 with h1 | h1 | h1
    · rw [slInsertWith_cons_lt h1]
      simp [evalCount]
    · subst h1
      rw [slInsertWith_cons_eq rfl]
      simp only [evalCount, List.map_cons, List.prod_cons]
      rw [pow_add, pow_one]
      ring
    · rw [slInsertWith_cons_gt h1]
      simp only [evalCount, List.map_cons, List.prod_cons] at ih ⊢
      rw [ih]
      ring

theorem evalCount_toCountMap (asg : ProveExpressionUnit → F)
    (us : List ProveExpressionUnit) :
    evalCount asg (toCountMap us) = evalMono asg us := by
  suffices hgen : ∀ (m : List (ProveExpressionUnit × ℕ)),
      evalCount asg (us.foldl (fun m u => slInsertWith (fun a b => a + b) u 1 m) m) =
        evalMono asg us * evalCount asg m by
    have := hgen []
    unfold toCountMap
    rw [this]
    simp [evalCount]
  induction us with
  | nil => intro m; simp [evalMono]
  | cons x t ih =>
    intro m
    rw [List.foldl_cons, ih, evalCount_slInsertWith_one]
    simp only [evalMono, List.map_cons, List.prod_cons]
    ring

theorem evalPairs_map_toCountMap (asg : ProveExpressionUnit → F) (y : F)
    (L : List (List ProveExpressionUnit × List (ℕ × F))) :
    evalPairs asg y (L.map (fun p => (toCountMap p.1, p.2))) = evalFlat asg y L := by
  induction L with
  | nil => simp [evalPairs, evalFlat]
  | cons p t ih =>
    simp only [List.map_cons, evalPairs, evalFlat, List.sum_cons] at ih ⊢
    rw [ih, evalCount_toCountMap]

/-- Soundness of `reconstruct ∘ flatten`: on any expression it succeeds and
the result evaluates identically. -/
theorem reconstruct_flatten_sound (e : ProveExpression F) :
    ∃ t, reconstruct (flatten e) = some t ∧
      ∀ asg y, evalPE asg y t = evalPE asg y e := by
  unfold reconstruct
  have hwf : ∀ p ∈ (flatten e).map (fun p => (toCountMap p.1, p.2)), CMWF p.1 := by
    intro p hp
    rcases List.mem_map.1 hp with ⟨q, hq, rfl⟩
    exact toCountMap_CMWF q.1
  have hpw : List.Pairwise (fun p q : RPair F => p.1 ≠ q.1)
      ((flatten e).map (fun p => (toCountMap p.1, p.2))) := by
    rw [List.pairwise_map]
    refine List.Pairwise.imp_of_mem ?_ (flatten_sorted e)
    intro p q hpm hqm hlt heq
    have hpq : p.1 = q.1 := toCountMap_inj (flatten_keys_sorted e p hpm)
      (flatten_keys_sorted e q hqm) heq
    exact absurd hpq (ne_of_lt hlt)
  have hne : (flatten e).map (fun p => (toCountMap p.1, p.2)) ≠ [] := by
    intro hcon
    exact flatten_ne_nil e (List.map_eq_nil_iff.1 hcon)
  rcases _reconstruct_sound _ _ (le_refl _) hwf hpw hne with ⟨t, ht, heval⟩
  refine ⟨t, ht, ?_⟩
  intro asg y
  rw [heval asg y, evalPairs_map_toCountMap, evalFlat_flatten]

/-! ### Characterization of the greedy choice (toward C3) -/

/-- Occurrence count of a unit across the pairs: the number of pairs whose
multiplicity map mentions it (each pair contributes at most one increment at
lines 540-548). -/
def occCount (u : ProveExpressionUnit) (tree : List (RPair F)) : ℕ :=
  tree.countP (fun p => (slGet u p.1).isSome)

theorem countOpt_countOpt (a b : ℕ) (o : Option ℕ) :
    countOpt a (countOpt b o) = countOpt (a + b) o := by
  rcases o with _ | v
  · by_cases hb : b = 0
    · subst hb
      simp [countOpt]
    · rw [show countOpt b none = some b by simp [countOpt, hb]]
      by_cases ha : a = 0
      · subst ha
        simp [countOpt, hb]
      · simp [countOpt, hb, ha]
  · simp [countOpt]
    omega

theorem slGet_inner_count_fold (w : ProveExpressionUnit)
    (us : List (ProveExpressionUnit × ℕ)) (m : List (ProveExpressionUnit × ℕ))
    (hm : SKSorted m) :
    slGet w (us.foldl (fun m q => slInsertWith (fun a b => a + b) q.1 1 m) m) =
      countOpt ((us.map Prod.fst).count w) (slGet w m) := by
  rw [← List.foldl_map Prod.fst (fun m u => slInsertWith (fun a b => a + b) u 1 m) us m]
  exact slGet_toCountMap_fold w (us.map Prod.fst) m hm

theorem key_count_of_SKSorted {us : List (ProveExpressionUnit × ℕ)} (hs : SKSorted us)
    (w : ProveExpressionUnit) :
    (us.map Prod.fst).count w = if (slGet w us).isSome then 1 else 0 := by
  induction us with
  | nil => simp [slGet]
  | cons p t ih =>
    rcases List.pairwise_cons.1 hs with ⟨hp, ht⟩
    by_cases hw : w = p.1
    · have hnot : w ∉ (t.map Prod.fst) := by
        intro hcon
        rcases List.mem_map.1 hcon with ⟨q, hq, hqe⟩
        have hlt : p.1 < w := hqe ▸ hp q hq
        rw [hw] at hlt
        exact lt_irrefl _ hlt
      rw [List.map_cons, List.count_cons, List.count_eq_zero_of_not_mem hnot, hw,
        slGet_cons_self]
      simp
    · rw [List.map_cons, List.count_cons, slGet_cons_ne _ hw, ih ht]
      have : ¬(p.1 = w) := fun h => hw h.symm
      by_cases hsome : (slGet w t).isSome <;> simp [hsome, hw, this]

theorem countTree_SKSorted (tree : List (RPair F)) : SKSorted (countTree tree) := by
  unfold countTree
  suffices hgen : ∀ (m : List (ProveExpressionUnit × ℕ)), SKSorted m →
      SKSorted (List.foldl
        (fun m p => p.1.foldl (fun m q => slInsertWith (fun a b => a + b) q.1 1 m) m)
        m tree) by
    exact hgen [] SKSorted.nil
  induction tree with
  | nil => intro m hm; exact hm
  | cons p t ih =>
    intro m hm
    rw [List.foldl_cons]
    exact ih _ (SKSorted_foldl Prod.fst (fun _ => 1) _ p.1 hm)

theorem slGet_countTree {tree : List (RPair F)} (hwf : ∀ p ∈ tree, SKSorted p.1)
    (u : ProveExpressionUnit) :
    slGet u (countTree tree) =
      if occCount u tree = 0 then none else some (occCount u tree) := by
  unfold countTree
  suffices hgen : ∀ (m : List (ProveExpressionUnit × ℕ)), SKSorted m →
      slGet u (List.foldl
        (fun m p => p.1.foldl (fun m q => slInsertWith (fun a b => a + b) q.1 1 m) m)
        m tree) = countOpt (occCount u tree) (slGet u m) by
    rw [hgen [] SKSorted.nil]
    rfl
  induction tree with
  | nil =>
    intro m hm
    show slGet u m = countOpt (occCount u []) (slGet u m)
    rcases hg : slGet u m with _ | v <;> simp [countOpt, occCount, hg]
  | cons p t ih =>
    intro m hm
    rw [List.foldl_cons]
    have hinner := slGet_inner_count_fold u p.1 m hm
    have hkey := key_count_of_SKSorted (hwf p (List.mem_cons_self p t)) u
    have hsorted : SKSorted (p.1.foldl (fun m q => slInsertWith (fun a b => a + b) q.1 1 m) m) :=
      SKSorted_foldl Prod.fst (fun _ => 1) _ p.1 hm
    rw [ih (fun q hq => hwf q (List.mem_cons_of_mem p hq)) _ hsorted, hinner, hkey,
      countOpt_countOpt]
    have hocc : occCount u (p :: t) =
        occCount u t + (if (slGet u p.1).isSome then 1 else 0) := by
      unfold occCount
      rw [List.countP_cons]
    rw [hocc]

theorem selectMaxFromC_min (cm : List (ProveExpressionUnit × ℕ)) :
    ∀ (u : ProveExpressionUnit) (c : ℕ), SKSorted cm → (∀ q ∈ cm, u ≤ q.1) →
      ∀ q ∈ cm, q.2 = (selectMaxFromC u c cm).2 → (selectMaxFromC u c cm).1 ≤ q.1 := by
  induction cm with
  | nil => intro u c _ _ q hq; exact absurd hq (List.not_mem_nil q)
  | cons p t ih =>
    intro u c hs hu q hq hqv
    rcases List.pairwise_cons.1 hs with ⟨hp, ht⟩
    unfold selectMaxFromC at hqv ⊢
    by_cases h : c < p.2
    · rw [if_pos h] at hqv ⊢
      rcases List.mem_cons.1 hq with heq | hq'
      · rcases selectMaxFromC_mem t p.1 p.2 with h' | ⟨hmem, hlt⟩
        · rw [h', heq]
        · rw [heq] at hqv
          rw [← hqv] at hlt
          exact absurd hlt (lt_irrefl _)
      · exact ih p.1 p.2 ht (fun q' hq'' => le_of_lt (hp q' hq'')) q hq' hqv
    · rw [if_neg h] at hqv ⊢
      rcases List.mem_cons.1 hq with heq | hq'
      · rcases selectMaxFromC_mem t u c with h' | ⟨hmem, hlt⟩
        · rw [h']
          rw [heq]
          exact hu p (List.mem_cons_self p t)
        · rw [heq] at hqv
          rw [← hqv] at hlt
          exact absurd hlt (by omega)
      · refine ih u c ht ?_ q hq' hqv
        intro q' hq''
        exact le_trans (hu p (List.mem_cons_self p t)) (le_of_lt (hp q' hq''))

theorem selectMax_spec {tree : List (RPair F)} (hwf : ∀ p ∈ tree, SKSorted p.1)
    {u0 : ProveExpressionUnit} {c0 : ℕ} {cm : List (ProveExpressionUnit × ℕ)}
    (hm : countTree tree = (u0, c0) :: cm) :
    (∀ u, occCount u tree ≤ occCount (selectMaxFromC u0 0 ((u0, c0) :: cm)).1 tree) ∧
    (∀ u, occCount u tree = occCount (selectMaxFromC u0 0 ((u0, c0) :: cm)).1 tree →
      (selectMaxFromC u0 0 ((u0, c0) :: cm)).1 ≤ u) := by
  have hsorted : SKSorted ((u0, c0) :: cm) := hm ▸ countTree_SKSorted tree
  have hchar : ∀ u, slGet u ((u0, c0) :: cm) =
      if occCount u tree = 0 then none else some (occCount u tree) := by
    intro u
    rw [← hm]
    exact slGet_countTree hwf u
  have hc0 : 1 ≤ c0 := @countTree_vals _ tree (u0, c0) (hm ▸ List.mem_cons_self _ _)
  have hge := selectMaxFromC_ge ((u0, c0) :: cm) u0 0
  have hheadle := hge.2 (u0, c0) (List.mem_cons_self _ _)
  rcases selectMaxFromC_mem ((u0, c0) :: cm) u0 0 with hres | ⟨hresmem, hrespos⟩
  · rw [hres] at hheadle
    omega
  have hressome : slGet (selectMaxFromC u0 0 ((u0, c0) :: cm)).1 ((u0, c0) :: cm) =
      some (selectMaxFromC u0 0 ((u0, c0) :: cm)).2 :=
    mem_slGet hsorted hresmem
  have hoccres : occCount (selectMaxFromC u0 0 ((u0, c0) :: cm)).1 tree =
      (selectMaxFromC u0 0 ((u0, c0) :: cm)).2 := by
    have := hchar (selectMaxFromC u0 0 ((u0, c0) :: cm)).1
    rw [hressome] at this
    by_cases hz : occCount (selectMaxFromC u0 0 ((u0, c0) :: cm)).1 tree = 0
    · rw [if_pos hz] at this
      exact absurd this (by simp)
    · rw [if_neg hz] at this
      exact (Option.some.inj this).symm
  constructor
  · intro u
    rw [hoccres]
    have := hchar u
    by_cases hz : occCount u tree = 0
    · omega
    · rw [if_neg hz] at this
      have hmem : (u, occCount u tree) ∈ (u0, c0) :: cm := slGet_mem this
      exact hge.2 _ hmem
  · intro u hu
    rw [hoccres] at hu
    have := hchar u
    by_cases hz : occCount u tree = 0
    · rw [hz] at hu
      omega
    · rw [if_neg hz, hu] at this
      have hmem : (u, (selectMaxFromC u0 0 ((u0, c0) :: cm)).2) ∈ (u0, c0) :: cm :=
        slGet_mem this
      have hhead : ∀ q ∈ (u0, c0) :: cm, u0 ≤ q.1 := by
        intro q hq
        rcases List.mem_cons.1 hq with rfl | hq'
        · exact le_refl _
        · exact le_of_lt ((List.pairwise_cons.1 hsorted).1 q hq')
      exact selectMaxFromC_min ((u0, c0) :: cm) u0 0 hsorted hhead _ hmem rfl

end ProveExpression

/-! ### C2 and C3 -/

open ProveExpression in
/-- C2: for every expression tree `e`, `reconstruct (flatten e)` succeeds and
the reconstructed tree is algebraically equal to `e`: evaluated at any fixed
assignment of column values and any fixed challenge `y`, both yield the same
value (hence the same value at every point of the domain).  This covers in
particular every tree built via the standard construction path
(`from_expr` / `add_gate`). -/
theorem c2_reconstruct_flatten_evaluates {F : Type} [CommRing F]
    (e : ProveExpression F) :
    ∃ t, reconstruct (flatten e) = some t ∧
      ∀ (asg : ProveExpressionUnit → F) (y : F),
        evalPE asg y t = evalPE asg y e :=
  reconstruct_flatten_sound e

open ProveExpression in
/-- C3: in every recursive step of `_reconstruct` on a list of at least two
well-formed (monomial, coefficient) pairs, the chosen unit `U` attains the
maximum occurrence count over all pairs and is the first such unit in
ascending `(kind, column_index, rotation)` order (the order of
`ProveExpressionUnit`); the pairs containing `U` have `U`'s multiplicity
decremented and go left (in order), the rest go right (in order), and the
result is `Sum (Product (Unit U) left) right` when the right partition is
non-empty, else `Product (Unit U) left`. -/
theorem c3_reconstruct_step {F : Type} [CommRing F]
    (a b : RPair F) (rest : List (RPair F))
    (hwf : ∀ p ∈ (a :: b :: rest), CMWF p.1)
    (hone : ∃ p ∈ (a :: b :: rest), p.1 ≠ []) :
    ∃ U l r,
      (∀ u, occCount u (a :: b :: rest) ≤ occCount U (a :: b :: rest)) ∧
      (∀ u, occCount u (a :: b :: rest) = occCount U (a :: b :: rest) → U ≤ u) ∧
      partitionPairs U (a :: b :: rest) = some (l, r) ∧
      l = ((a :: b :: rest).filter (fun p => (slGet U p.1).isSome)).map
            (fun p => (decKey U p.1, p.2)) ∧
      r = (a :: b :: rest).filter (fun p => !(slGet U p.1).isSome) ∧
      (∀ p ∈ (a :: b :: rest), ∀ c, slGet U p.1 = some c →
        slGet U (decKey U p.1) = (if c = 1 then none else some (c - 1)) ∧
        ∀ w, w ≠ U → slGet w (decKey U p.1) = slGet w p.1) ∧
      _reconstruct (a :: b :: rest) =
        (_reconstruct l).bind (fun lt =>
          if r.length = 0 then some (ProveExpression.Product (ProveExpression.Unit U) lt)
          else (_reconstruct r).map
            (fun rt => ProveExpression.Sum (ProveExpression.Product (ProveExpression.Unit U) lt) rt)) := by
  rcases hone with ⟨p0, hp0, hp0ne⟩
  have hcne := countTree_ne_nil hp0 hp0ne
  rcases hcm : countTree (a :: b :: rest) with _ | ⟨⟨u0, c0⟩, cm⟩
  · exact absurd hcm hcne
  have hvals : ∀ p ∈ (a :: b :: rest), ∀ q ∈ p.1, 1 ≤ q.2 :=
    fun p hp q hq => (hwf p hp).2 q hq
  have hpsome := partitionPairs_isSome
    (u := (selectMaxFromC u0 0 ((u0, c0) :: cm)).1) hvals
  rcases hp : partitionPairs (selectMaxFromC u0 0 ((u0, c0) :: cm)).1 (a :: b :: rest)
    with _ | ⟨l, r⟩
  · rw [hp] at hpsome
    exact absurd hpsome (by simp)
  rcases selectMax_spec (fun p hp => (hwf p hp).1) hcm with ⟨hmax, hmin⟩
  rcases partitionPairs_char hp with ⟨hcl, hcr⟩
  refine ⟨(selectMaxFromC u0 0 ((u0, c0) :: cm)).1, l, r, hmax, hmin, hp, hcl, hcr, ?_, ?_⟩
  · intro p hpm c hgc
    have hc : 1 ≤ c := (hwf p hpm).2 (_, c) (slGet_mem hgc)
    constructor
    · rw [decKey_slGet (hwf p hpm).1 hgc hc _, if_pos rfl]
    · intro w hw
      rw [decKey_slGet (hwf p hpm).1 hgc hc w, if_neg hw]
  · rw [_reconstruct_step hcm hp]
    cases _reconstruct l with
    | none => rfl
    | some lt =>
      cases hr : _reconstruct r with
      | none =>
        by_cases h0 : r.length = 0 <;> simp [h0, hr]
      | some rt =>
        by_cases h0 : r.length = 0 <;> simp [h0, hr]

/-- First concrete pair for the C3 witness: monomial a₀, coefficient 1. -/
def c3wA : RPair ℤ := ([(ProveExpressionUnit.Advice 0 0, 1)], [(0, 1)])

/-- Second concrete pair for the C3 witness: monomial a₀·a₁, coefficient 2. -/
def c3wB : RPair ℤ :=
  ([(ProveExpressionUnit.Advice 0 0, 1), (ProveExpressionUnit.Advice 1 0, 1)], [(0, 2)])

open ProveExpression in
/-- Witness for C3: the hypotheses hold at a concrete two-pair input. -/
theorem c3_reconstruct_step_witness :
    ∃ U l r,
      (∀ u, occCount u [c3wA, c3wB] ≤ occCount U [c3wA, c3wB]) ∧
      (∀ u, occCount u [c3wA, c3wB] = occCount U [c3wA, c3wB] → U ≤ u) ∧
      partitionPairs U [c3wA, c3wB] = some (l, r) ∧
      l = (([c3wA, c3wB]).filter (fun p => (slGet U p.1).isSome)).map
            (fun p => (decKey U p.1, p.2)) ∧
      r = ([c3wA, c3wB]).filter (fun p => !(slGet U p.1).isSome) ∧
      (∀ p ∈ [c3wA, c3wB], ∀ c, slGet U p.1 = some c →
        slGet U (decKey U p.1) = (if c = 1 then none else some (c - 1)) ∧
        ∀ w, w ≠ U → slGet w (decKey U p.1) = slGet w p.1) ∧
      _reconstruct [c3wA, c3wB] =
        (_reconstruct l).bind (fun lt =>
          if r.length = 0 then some (ProveExpression.Product (ProveExpression.Unit U) lt)
          else (_reconstruct r).map
            (fun rt =>
              ProveExpression.Sum (ProveExpression.Product (ProveExpression.Unit U) lt) rt)) :=
  c3_reconstruct_step c3wA c3wB []
    (by simp only [ProveExpression.CMWF, SKSorted, c3wA, c3wB]; decide)
    ⟨c3wA, List.mem_cons_self _ _, by simp [c3wA]⟩

/-! ### An algebraic mirror of the canonical maps (toward C4 and C5)

A BTreeMap can store an entry whose value is algebraically zero, and two maps
differing in such entries are different values.  To compare canonical maps as
algebra elements without losing that distinction, coefficients are embedded
into `OZ R`: `Option R` with `none` as a fresh additive unit and
multiplicative absorber, which is again a commutative semiring. -/

def OZ (R : Type) : Type := Option R

/-- Addition on `OZ`: `none` is neutral. -/
def ozAdd {R : Type} [CommSemiring R] : OZ R → OZ R → OZ R
  | none, b => b
  | some a, none => some a
  | some a, some b => some (a + b)

/-- Multiplication on `OZ`: `none` absorbs. -/
def ozMul {R : Type} [CommSemiring R] : OZ R → OZ R → OZ R
  | none, _ => none
  | some _, none => none
  | some a, some b => some (a * b)

theorem ozAdd_assoc {R : Type} [CommSemiring R] (a b c : OZ R) :
    ozAdd (ozAdd a b) c = ozAdd a (ozAdd b c) := by
  cases a <;> cases b <;> cases c <;> simp [ozAdd] <;> ring

theorem ozAdd_comm {R : Type} [CommSemiring R] (a b : OZ R) :
    ozAdd a b = ozAdd b a := by
  cases a <;> cases b <;> simp [ozAdd] <;> ring

theorem ozMul_assoc {R : Type} [CommSemiring R] (a b c : OZ R) :
    ozMul (ozMul a b) c = ozMul a (ozMul b c) := by
  cases a <;> cases b <;> cases c <;> simp [ozMul] <;> ring

theorem ozMul_comm {R : Type} [CommSemiring R] (a b : OZ R) :
    ozMul a b = ozMul b a := by
  cases a <;> cases b <;> simp [ozMul] <;> ring

theorem ozLeft_distrib {R : Type} [CommSemiring R] (a b c : OZ R) :
    ozMul a (ozAdd b c) = ozAdd (ozMul a b) (ozMul a c) := by
  cases a <;> cases b <;> cases c <;> simp [ozAdd, ozMul] <;> ring

theorem ozRight_distrib {R : Type} [CommSemiring R] (a b c : OZ R) :
    ozMul (ozAdd a b) c = ozAdd (ozMul a c) (ozMul b c) := by
  cases a <;> cases b <;> cases c <;> simp [ozAdd, ozMul] <;> ring

theorem ozOne_mul {R : Type} [CommSemiring R] (a : OZ R) :
    ozMul (some 1) a = a := by
  cases a <;> simp [ozMul]

theorem ozMul_one {R : Type} [CommSemiring R] (a : OZ R) :
    ozMul a (some 1) = a := by
  cases a <;> simp [ozMul]

instance {R : Type} [CommSemiring R] : Zero (OZ R) := ⟨(none : Option R)⟩

instance {R : Type} [CommSemiring R] : One (OZ R) := ⟨(some 1 : Option R)⟩

instance {R : Type} [CommSemiring R] : Add (OZ R) := ⟨ozAdd⟩

instance {R : Type} [CommSemiring R] : Mul (OZ R) := ⟨ozMul⟩

instance {R : Type} [CommSemiring R] : CommSemiring (OZ R) where
  add := (· + ·)
  add_assoc := ozAdd_assoc
  zero := 0
  zero_add a := by cases a <;> rfl
  add_zero a := by cases a <;> rfl
  add_comm := ozAdd_comm
  nsmul := nsmulRec
  mul := (· * ·)
  left_distrib := ozLeft_distrib
  right_distrib := ozRight_distrib
  zero_mul a := by cases a <;> rfl
  mul_zero a := by cases a <;> rfl
  mul_assoc := ozMul_assoc
  one := 1
  one_mul := ozOne_mul
  mul_one := ozMul_one
  mul_comm := ozMul_comm
  npow := npowRec

/-- The embedding of `R` into `OZ R`. -/
def ozSome {R : Type} (a : R) : OZ R := some a

theorem ozSome_add {R : Type} [CommSemiring R] (a b : R) :
    ozSome (a + b) = ozSome a + ozSome b := rfl

theorem ozSome_mul {R : Type} [CommSemiring R] (a b : R) :
    ozSome (a * b) = ozSome a * ozSome b := rfl

theorem ozSome_ne_zero {R : Type} [CommSemiring R] (a : R) :
    ozSome a ≠ 0 := by
  intro h
  exact Option.noConfusion h

theorem ozSome_inj {R : Type} [CommSemiring R] {a b : R}
    (h : ozSome a = ozSome b) : a = b := Option.some.inj h

section ListToAlg

variable {K : Type} [LinearOrder K] {V : Type} {M : Type} [AddCommMonoid M] [DecidableEq M]
variable {R : Type} [CommSemiring R]

/-- Algebraic mirror of an association list: the formal sum of one
`AddMonoidAlgebra.single` per entry, with keys translated by `f` and values by `g`. -/
noncomputable def listToAlg (f : K → M) (g : V → R) (L : List (K × V)) :
    AddMonoidAlgebra R M :=
  (L.map (fun p => AddMonoidAlgebra.single (f p.1) (g p.2))).sum

theorem listToAlg_nil (f : K → M) (g : V → R) : listToAlg f g [] = 0 := rfl

theorem listToAlg_cons (f : K → M) (g : V → R) (p : K × V) (L : List (K × V)) :
    listToAlg f g (p :: L) =
      AddMonoidAlgebra.single (f p.1) (g p.2) + listToAlg f g L := by
  simp [listToAlg]

theorem listToAlg_slInsertWith (f : K → M) (g : V → R) {c : V → V → V}
    (hg : ∀ v w, g (c v w) = g w + g v) (k : K) (v : V) (L : List (K × V)) :
    listToAlg f g (slInsertWith c k v L) =
      listToAlg f g L + AddMonoidAlgebra.single (f k) (g v) := by
  induction L with
  | nil =>
    rw [slInsertWith_nil, listToAlg_cons, listToAlg_nil]
    rw [zero_add, add_zero]
  | cons p t ih =>
    rcases lt_trichotomy k p.1 with h1 | h1 | h1
    · rw [slInsertWith_cons_lt h1, listToAlg_cons, listToAlg_cons]
      exact add_comm _ _
    · subst h1
      rw [slInsertWith_cons_eq rfl, listToAlg_cons, listToAlg_cons, hg, AddMonoidAlgebra.single_add]
      abel
    · rw [slInsertWith_cons_gt h1, listToAlg_cons, listToAlg_cons, ih]
      exact (add_assoc _ _ _).symm

theorem listToAlg_foldl_ins {A : Type} (f : K → M) (g : V → R) {c : V → V → V}
    (hg : ∀ v w, g (c v w) = g w + g v) (key : A → K) (val : A → V) (us : List A) :
    ∀ acc : List (K × V),
      listToAlg f g (us.foldl (fun acc a => slInsertWith c (key a) (val a) acc) acc) =
        listToAlg f g acc +
          (us.map (fun a => AddMonoidAlgebra.single (f (key a)) (g (val a)))).sum := by
  induction us with
  | nil => intro acc; simp
  | cons a t ih =>
    intro acc
    rw [List.foldl_cons, ih, listToAlg_slInsertWith f g hg]
    simp only [List.map_cons, List.sum_cons]
    abel

theorem listToAlg_double_fold {A B : Type} (f : K → M) (g : V → R) {c : V → V → V}
    (hg : ∀ v w, g (c v w) = g w + g v) (key : A → B → K) (val : A → B → V)
    (As : List A) (Bs : List B) :
    ∀ acc : List (K × V),
      listToAlg f g (As.foldl
        (fun res a => Bs.foldl
          (fun res b => slInsertWith c (key a b) (val a b) res) res) acc) =
        listToAlg f g acc +
          (As.map (fun a =>
            (Bs.map (fun b => AddMonoidAlgebra.single (f (key a b)) (g (val a b)))).sum)).sum := by
  induction As with
  | nil => intro acc; simp
  | cons a t ih =>
    intro acc
    rw [List.foldl_cons, ih, listToAlg_foldl_ins f g hg (key a) (val a)]
    simp only [List.map_cons, List.sum_cons]
    abel

theorem mul_sum_map {B : Type} (x : AddMonoidAlgebra R M) (ψ : B → AddMonoidAlgebra R M)
    (Bs : List B) : x * (Bs.map ψ).sum = (Bs.map (fun b => x * ψ b)).sum := by
  induction Bs with
  | nil => simp
  | cons b t ih =>
    simp only [List.map_cons, List.sum_cons, left_distrib, ih]

theorem sum_map_mul_sum_map {A B : Type} (φ : A → AddMonoidAlgebra R M)
    (ψ : B → AddMonoidAlgebra R M) (As : List A) (Bs : List B) :
    (As.map φ).sum * (Bs.map ψ).sum =
      (As.map (fun a => (Bs.map (fun b => φ a * ψ b)).sum)).sum := by
  induction As with
  | nil => simp
  | cons a t ih =>
    simp only [List.map_cons, List.sum_cons, right_distrib, ih, mul_sum_map]

theorem listToAlg_apply_ne (f : K → M) (g : V → R) {L : List (K × V)} {m : M}
    (h : ∀ p ∈ L, f p.1 ≠ m) : (listToAlg f g L) m = 0 := by
  induction L with
  | nil => rfl
  | cons p t ih =>
    rw [listToAlg_cons]
    rw [Finsupp.add_apply, AddMonoidAlgebra.single_apply,
      if_neg (h p (List.mem_cons_self p t)), zero_add]
    exact ih (fun q hq => h q (List.mem_cons_of_mem p hq))

theorem listToAlg_apply_mem (f : K → M) (g : V → R) {L : List (K × V)}
    (hs : SKSorted L)
    (hfin : ∀ p ∈ L, ∀ q ∈ L, f p.1 = f q.1 → p.1 = q.1)
    {k : K} {v : V} (hmem : (k, v) ∈ L) : (listToAlg f g L) (f k) = g v := by
  induction L with
  | nil => exact absurd hmem (List.not_mem_nil _)
  | cons p t ih =>
    rcases List.pairwise_cons.1 hs with ⟨hp, ht⟩
    rw [listToAlg_cons, Finsupp.add_apply]
    rcases List.mem_cons.1 hmem with heq | hmem'
    · have hk : p.1 = k := by rw [← heq]
      have hv : p.2 = v := by rw [← heq]
      rw [AddMonoidAlgebra.single_apply, if_pos (by rw [hk]), hv]
      have hzero : (listToAlg f g t) (f k) = 0 := by
        refine listToAlg_apply_ne f g ?_
        intro q hq hcon
        have hq1 : q.1 = p.1 := hfin q (List.mem_cons_of_mem p hq) p
          (List.mem_cons_self p t) (by rw [hcon, hk])
        have hlt := hp q hq
        rw [hq1] at hlt
        exact lt_irrefl _ hlt
      rw [hzero, add_zero]
    · have hne : f p.1 ≠ f k := by
        intro hcon
        have hq := hfin p (List.mem_cons_self p t) (k, v) (List.mem_cons_of_mem p hmem')
          hcon
        have := hp (k, v) hmem'
        rw [hq] at this
        exact lt_irrefl _ this
      rw [AddMonoidAlgebra.single_apply, if_neg hne, zero_add]
      exact ih ht
        (fun a ha b hb => hfin a (List.mem_cons_of_mem p ha) b (List.mem_cons_of_mem p hb))
        hmem'

theorem listToAlg_exists_key (f : K → M) (g : V → R) {L : List (K × V)} {m : M}
    (h : (listToAlg f g L) m ≠ 0) : ∃ p ∈ L, f p.1 = m := by
  by_contra hcon
  push_neg at hcon
  exact h (listToAlg_apply_ne f g hcon)

theorem listToAlg_mem_of_mem (f : K → M) (g : V → R)
    {L1 L2 : List (K × V)} (hs1 : SKSorted L1) (hs2 : SKSorted L2)
    (hfin : ∀ p ∈ L1 ++ L2, ∀ q ∈ L1 ++ L2, f p.1 = f q.1 → p.1 = q.1)
    (hgin : ∀ p ∈ L1 ++ L2, ∀ q ∈ L1 ++ L2, g p.2 = g q.2 → p.2 = q.2)
    (hg0 : ∀ p ∈ L1 ++ L2, g p.2 ≠ 0)
    (h : listToAlg f g L1 = listToAlg f g L2) :
    ∀ p ∈ L1, p ∈ L2 := by
  rintro ⟨k, v⟩ hp
  have hfin1 : ∀ p ∈ L1, ∀ q ∈ L1, f p.1 = f q.1 → p.1 = q.1 :=
    fun p hp q hq => hfin p (List.mem_append_left _ hp) q (List.mem_append_left _ hq)
  have hfin2 : ∀ p ∈ L2, ∀ q ∈ L2, f p.1 = f q.1 → p.1 = q.1 :=
    fun p hp q hq => hfin p (List.mem_append_right _ hp) q (List.mem_append_right _ hq)
  have happ1 : (listToAlg f g L1) (f k) = g v := listToAlg_apply_mem f g hs1 hfin1 hp
  have happ2 : (listToAlg f g L2) (f k) = g v := by rw [← h]; exact happ1
  have hne : (listToAlg f g L2) (f k) ≠ 0 := by
    rw [happ2]; exact hg0 (k, v) (List.mem_append_left _ hp)
  rcases listToAlg_exists_key f g hne with ⟨⟨qk, qv⟩, hq, hfq⟩
  have hq1 : qk = k :=
    hfin (qk, qv) (List.mem_append_right _ hq) (k, v) (List.mem_append_left _ hp) hfq
  have happq : (listToAlg f g L2) (f qk) = g qv := listToAlg_apply_mem f g hs2 hfin2 hq
  rw [hfq] at happq
  have hgv : g qv = g v := by rw [← happq]; exact happ2
  have hq2 : qv = v := hgin (qk, qv) (List.mem_append_right _ hq) (k, v)
    (List.mem_append_left _ hp) hgv
  rw [hq1, hq2] at hq
  exact hq

theorem listToAlg_inj (f : K → M) (g : V → R)
    {L1 L2 : List (K × V)} (hs1 : SKSorted L1) (hs2 : SKSorted L2)
    (hfin : ∀ p ∈ L1 ++ L2, ∀ q ∈ L1 ++ L2, f p.1 = f q.1 → p.1 = q.1)
    (hgin : ∀ p ∈ L1 ++ L2, ∀ q ∈ L1 ++ L2, g p.2 = g q.2 → p.2 = q.2)
    (hg0 : ∀ p ∈ L1 ++ L2, g p.2 ≠ 0)
    (h : listToAlg f g L1 = listToAlg f g L2) : L1 = L2 := by
  have hsw : ∀ p : K × V, p ∈ L2 ++ L1 → p ∈ L1 ++ L2 := by
    intro p hp
    rw [List.mem_append] at hp ⊢
    exact hp.symm
  have h12 := listToAlg_mem_of_mem f g hs1 hs2 hfin hgin hg0 h
  have h21 := listToAlg_mem_of_mem f g hs2 hs1
    (fun p hp q hq => hfin p (hsw p hp) q (hsw q hq))
    (fun p hp q hq => hgin p (hsw p hp) q (hsw q hq))
    (fun p hp => hg0 p (hsw p hp)) h.symm
  have hnd1 : L1.Nodup :=
    hs1.imp (fun hlt hc => absurd (congrArg Prod.fst hc) (ne_of_lt hlt))
  have hnd2 : L2.Nodup :=
    hs2.imp (fun hlt hc => absurd (congrArg Prod.fst hc) (ne_of_lt hlt))
  have hperm : L1.Perm L2 :=
    (List.perm_ext_iff_of_nodup hnd1 hnd2).2 (fun p => ⟨h12 p, h21 p⟩)
  haveI : IsAntisymm (K × V) (fun p q : K × V => p.1 < q.1) :=
    ⟨fun a b hab hba => absurd (lt_trans hab hba) (lt_irrefl _)⟩
  exact List.eq_of_perm_of_sorted hperm hs1 hs2

end ListToAlg

/-! ### The algebraic mirror of the canonical form (toward C4 and C5)

`flatten` produces the sorted association-list image of the Rust nested
BTreeMaps.  We mirror it into a genuine commutative semiring — the monoid
algebra over multisets of units, with `OZ`-wrapped y-polynomial values — where
commutativity of `Sum`-flattening and associativity of `Product`-flattening
are `add_comm` and `mul_assoc`; injectivity of the mirror on well-formed maps
transports the identities back to equality of canonical maps. -/

section DoubleFoldInv

variable {K V : Type} [LinearOrder K]

theorem valprop_double_foldl {A B : Type} (key : A → B → K) (val : A → B → V)
    (c : V → V → V) (P : V → Prop) (hc : ∀ v w, P v → P w → P (c v w))
    (As : List A) (Bs : List B) (hv : ∀ a ∈ As, ∀ b ∈ Bs, P (val a b)) :
    ∀ {m : List (K × V)}, (∀ q ∈ m, P q.2) →
      ∀ q ∈ As.foldl
        (fun m a => Bs.foldl (fun m b => slInsertWith c (key a b) (val a b) m) m) m,
        P q.2 := by
  induction As with
  | nil => intro m hm; exact hm
  | cons a t ih =>
    intro m hm
    rw [List.foldl_cons]
    refine ih (fun x hx b hb => hv x (List.mem_cons_of_mem a hx) b hb) ?_
    exact valprop_foldl (key a) (val a) c P hc Bs hm
      (fun b hb => hv a (List.mem_cons_self a t) b hb)

end DoubleFoldInv

namespace ProveExpression

section AlgMirror

variable {F : Type} [CommRing F]

/-- Mirror of a y-coefficient map in the additive monoid algebra over `OZ F`
with ℕ exponents: each stored entry `(order, coeff)` becomes the monomial
`ozSome coeff · X^order`, so explicitly stored zero coefficients stay
visible. -/
noncomputable def ysToAlg (m : List (ℕ × F)) : AddMonoidAlgebra (OZ F) ℕ :=
  listToAlg id ozSome m

theorem ysToAlg_add_assign (l r : List (ℕ × F)) :
    ysToAlg (ys_add_assign l r) = ysToAlg l + ysToAlg r := by
  have hg : ∀ v w : F, ozSome (v + w) = ozSome w + ozSome v := by
    intro v w
    rw [ozSome_add, add_comm]
  exact listToAlg_foldl_ins id ozSome hg (fun p : ℕ × F => p.1) (fun p => p.2) r l

theorem ysToAlg_mul (l r : List (ℕ × F)) :
    ysToAlg (ys_mul l r) = ysToAlg l * ysToAlg r := by
  have hg : ∀ v w : F, ozSome (v + w) = ozSome w + ozSome v := by
    intro v w
    rw [ozSome_add, add_comm]
  have h := listToAlg_double_fold id ozSome hg
    (fun (a b : ℕ × F) => a.1 + b.1) (fun (a b : ℕ × F) => a.2 * b.2) l r []
  refine h.trans ?_
  rw [listToAlg_nil, zero_add]
  have h2 := sum_map_mul_sum_map
    (fun p : ℕ × F => AddMonoidAlgebra.single (id p.1) (ozSome p.2))
    (fun p : ℕ × F => AddMonoidAlgebra.single (id p.1) (ozSome p.2)) l r
  refine Eq.trans ?_ h2.symm
  refine congrArg List.sum (List.map_congr_left ?_)
  intro a ha
  refine congrArg List.sum (List.map_congr_left ?_)
  intro b hb
  simp only [id_eq, AddMonoidAlgebra.single_mul_single, ozSome_mul]

/-- Mirror of a whole canonical map: a monomial key becomes the multiset of
its units (a sorted unit list carries exactly this data), its value the
mirrored y-coefficient map, `OZ`-wrapped so that no stored entry is lost. -/
noncomputable def flatToAlg (L : List (List ProveExpressionUnit × List (ℕ × F))) :
    AddMonoidAlgebra (OZ (AddMonoidAlgebra (OZ F) ℕ)) (Multiset ProveExpressionUnit) :=
  listToAlg (fun ks : List ProveExpressionUnit => (ks : Multiset ProveExpressionUnit))
    (fun v : List (ℕ × F) => ozSome (ysToAlg v)) L

theorem flatToAlg_sum (a b : ProveExpression F) :
    flatToAlg (flatten (ProveExpression.Sum a b)) =
      flatToAlg (flatten a) + flatToAlg (flatten b) := by
  have hg : ∀ v w : List (ℕ × F),
      ozSome (ysToAlg (ys_add_assign w v)) = ozSome (ysToAlg w) + ozSome (ysToAlg v) := by
    intro v w
    rw [ysToAlg_add_assign, ozSome_add]
  exact listToAlg_foldl_ins
    (fun ks : List ProveExpressionUnit => (ks : Multiset ProveExpressionUnit))
    (fun v : List (ℕ × F) => ozSome (ysToAlg v)) hg
    (fun p => p.1) (fun p => p.2) (flatten b) (flatten a)

theorem flatToAlg_product (a b : ProveExpression F) :
    flatToAlg (flatten (ProveExpression.Product a b)) =
      flatToAlg (flatten a) * flatToAlg (flatten b) := by
  have hg : ∀ v w : List (ℕ × F),
      ozSome (ysToAlg (ys_add_assign w v)) = ozSome (ysToAlg w) + ozSome (ysToAlg v) := by
    intro v w
    rw [ysToAlg_add_assign, ozSome_add]
  have h := listToAlg_double_fold
    (fun ks : List ProveExpressionUnit => (ks : Multiset ProveExpressionUnit))
    (fun v : List (ℕ × F) => ozSome (ysToAlg v)) hg
    (fun (pl pr : List ProveExpressionUnit × List (ℕ × F)) =>
      (pl.1 ++ pr.1).mergeSort (fun a b => a ≤ b))
    (fun (pl pr : List ProveExpressionUnit × List (ℕ × F)) => ys_mul pl.2 pr.2)
    (flatten a) (flatten b) []
  refine h.trans ?_
  rw [listToAlg_nil, zero_add]
  have h2 := sum_map_mul_sum_map
    (fun p : List ProveExpressionUnit × List (ℕ × F) =>
      AddMonoidAlgebra.single ((p.1 : Multiset ProveExpressionUnit)) (ozSome (ysToAlg p.2)))
    (fun p : List ProveExpressionUnit × List (ℕ × F) =>
      AddMonoidAlgebra.single ((p.1 : Multiset ProveExpressionUnit)) (ozSome (ysToAlg p.2)))
    (flatten a) (flatten b)
  refine Eq.trans ?_ h2.symm
  refine congrArg List.sum (List.map_congr_left ?_)
  intro p hp
  refine congrArg List.sum (List.map_congr_left ?_)
  intro q hq
  have hm : (((p.1 ++ q.1).mergeSort (fun a b => a ≤ b) : List ProveExpressionUnit) :
      Multiset ProveExpressionUnit) =
      (p.1 : Multiset ProveExpressionUnit) + (q.1 : Multiset ProveExpressionUnit) := by
    rw [Multiset.coe_eq_coe.2 (List.mergeSort_perm (p.1 ++ q.1) _)]
    exact (Multiset.coe_add p.1 q.1).symm
  simp only [AddMonoidAlgebra.single_mul_single, ysToAlg_mul, ozSome_mul, hm]

theorem SKSorted_ys_add_assign {l : List (ℕ × F)} (r : List (ℕ × F)) (h : SKSorted l) :
    SKSorted (ys_add_assign l r) :=
  SKSorted_foldl (fun p : ℕ × F => p.1) (fun p : ℕ × F => p.2) (fun a b => a + b) r h

theorem SKSorted_ys_mul (l r : List (ℕ × F)) : SKSorted (ys_mul l r) := by
  have hgen : ∀ (acc : List (ℕ × F)), SKSorted acc →
      SKSorted (l.foldl
        (fun res pl => r.foldl
          (fun res pr => slInsertWith (fun a b => a + b) (pl.1 + pr.1) (pl.2 * pr.2) res)
          res) acc) := by
    induction l with
    | nil => intro acc h; exact h
    | cons p t ih =>
      intro acc h
      rw [List.foldl_cons]
      exact ih _ (SKSorted_foldl (fun q : ℕ × F => p.1 + q.1)
        (fun q : ℕ × F => p.2 * q.2) (fun a b => a + b) r h)
  exact hgen [] List.Pairwise.nil

/-- Representation invariant inherited from the Rust types: every `Y` payload
is the entry list of a `BTreeMap<u32, F>`, i.e. strictly sorted by order. -/
def ExprWF : ProveExpression F → Prop
  | .Unit _ => True
  | .Sum l r => ExprWF l ∧ ExprWF r
  | .Product l r => ExprWF l ∧ ExprWF r
  | .Y m => SKSorted m

theorem flatten_values_sorted (e : ProveExpression F) (hwf : ExprWF e) :
    ∀ p ∈ flatten e, SKSorted p.2 := by
  induction e with
  | Unit u =>
    intro p hp
    rcases List.mem_singleton.1 hp with rfl
    exact List.pairwise_singleton _ _
  | Sum l r ihl ihr =>
    intro p hp
    refine valprop_foldl (fun q : List ProveExpressionUnit × List (ℕ × F) => q.1)
      (fun q => q.2) (fun new old => ys_add_assign old new) SKSorted
      ?_ (flatten r) ?_ ?_ p hp
    · intro v w hv hw
      exact SKSorted_ys_add_assign v hw
    · exact ihl hwf.1
    · intro q hq
      exact ihr hwf.2 q hq
  | Product l r ihl ihr =>
    intro p hp
    refine valprop_double_foldl
      (fun pl pr : List ProveExpressionUnit × List (ℕ × F) =>
        (pl.1 ++ pr.1).mergeSort (fun a b => a ≤ b))
      (fun pl pr : List ProveExpressionUnit × List (ℕ × F) => ys_mul pl.2 pr.2)
      (fun new old => ys_add_assign old new) SKSorted ?_ (flatten l) (flatten r) ?_ ?_ p hp
    · intro v w hv hw
      exact SKSorted_ys_add_assign v hw
    · intro x hx y hy
      exact SKSorted_ys_mul x.2 y.2
    · intro q hq
      exact absurd hq (List.not_mem_nil q)
  | Y m =>
    intro p hp
    rcases List.mem_singleton.1 hp with rfl
    exact hwf

theorem sorted_multiset_inj {l1 l2 : List ProveExpressionUnit}
    (h1 : List.Pairwise (fun a b : ProveExpressionUnit => a ≤ b) l1)
    (h2 : List.Pairwise (fun a b : ProveExpressionUnit => a ≤ b) l2)
    (h : (l1 : Multiset ProveExpressionUnit) = (l2 : Multiset ProveExpressionUnit)) :
    l1 = l2 :=
  List.eq_of_perm_of_sorted (Multiset.coe_eq_coe.1 h) h1 h2

theorem ysToAlg_inj {l1 l2 : List (ℕ × F)} (h1 : SKSorted l1) (h2 : SKSorted l2)
    (h : ysToAlg l1 = ysToAlg l2) : l1 = l2 := by
  refine listToAlg_inj id ozSome h1 h2 ?_ ?_ ?_ h
  · intro p _ q _ hpq
    exact hpq
  · intro p _ q _ hpq
    exact ozSome_inj hpq
  · intro p _
    exact ozSome_ne_zero p.2

theorem flatToAlg_inj {L1 L2 : List (List ProveExpressionUnit × List (ℕ × F))}
    (hs1 : SKSorted L1) (hs2 : SKSorted L2)
    (hk : ∀ p ∈ L1 ++ L2, List.Pairwise (fun a b : ProveExpressionUnit => a ≤ b) p.1)
    (hv : ∀ p ∈ L1 ++ L2, SKSorted p.2)
    (h : flatToAlg L1 = flatToAlg L2) : L1 = L2 := by
  refine listToAlg_inj
    (fun ks : List ProveExpressionUnit => (ks : Multiset ProveExpressionUnit))
    (fun v : List (ℕ × F) => ozSome (ysToAlg v)) hs1 hs2 ?_ ?_ ?_ h
  · intro p hp q hq hpq
    exact sorted_multiset_inj (hk p hp) (hk q hq) hpq
  · intro p hp q hq hpq
    exact ysToAlg_inj (hv p hp) (hv q hq) (ozSome_inj hpq)
  · intro p _
    exact ozSome_ne_zero _

end AlgMirror

end ProveExpression

/-- C4: flattening a `Sum` is commutative.  For operands satisfying the
BTreeMap representation invariant (every `Y` payload strictly sorted by
order), the canonical maps of `Sum a b` and `Sum b a` are identical: the same
sorted list of monomial keys, each bound to the identical
order-to-coefficient map. -/
theorem c4_flatten_sum_comm {F : Type} [CommRing F] (a b : ProveExpression F)
    (ha : ProveExpression.ExprWF a) (hb : ProveExpression.ExprWF b) :
    ProveExpression.flatten (ProveExpression.Sum a b) =
      ProveExpression.flatten (ProveExpression.Sum b a) := by
  have hw1 : ProveExpression.ExprWF (ProveExpression.Sum a b) := ⟨ha, hb⟩
  have hw2 : ProveExpression.ExprWF (ProveExpression.Sum b a) := ⟨hb, ha⟩
  refine ProveExpression.flatToAlg_inj
    (ProveExpression.flatten_sorted _) (ProveExpression.flatten_sorted _) ?_ ?_ ?_
  · intro p hp
    rcases List.mem_append.1 hp with h | h
    · exact ProveExpression.flatten_keys_sorted _ p h
    · exact ProveExpression.flatten_keys_sorted _ p h
  · intro p hp
    rcases List.mem_append.1 hp with h | h
    · exact ProveExpression.flatten_values_sorted _ hw1 p h
    · exact ProveExpression.flatten_values_sorted _ hw2 p h
  · rw [ProveExpression.flatToAlg_sum, ProveExpression.flatToAlg_sum]
    exact add_comm _ _

/-- First operand of the C4 witness: a `Y` node with two stored orders. -/
def c4wa : ProveExpression ℤ := ProveExpression.Y [(0, 2), (1, 3)]

/-- Second operand of the C4 witness: a sum of a unit and a `Y` node. -/
def c4wb : ProveExpression ℤ :=
  ProveExpression.Sum (ProveExpression.Unit (ProveExpressionUnit.Advice 0 0))
    (ProveExpression.Y [(0, 5)])

/-- Witness for C4: the well-formedness hypotheses hold at concrete operands
and the flattenings of the two sums coincide. -/
theorem c4_flatten_sum_comm_witness :
    ProveExpression.ExprWF c4wa ∧ ProveExpression.ExprWF c4wb ∧
      ProveExpression.flatten (ProveExpression.Sum c4wa c4wb) =
        ProveExpression.flatten (ProveExpression.Sum c4wb c4wa) :=
  ⟨by simp only [c4wa, ProveExpression.ExprWF, SKSorted]; decide,
   by simp only [c4wb, ProveExpression.ExprWF, SKSorted]; decide,
   c4_flatten_sum_comm c4wa c4wb
     (by simp only [c4wa, ProveExpression.ExprWF, SKSorted]; decide)
     (by simp only [c4wb, ProveExpression.ExprWF, SKSorted]; decide)⟩

/-- C5: flattening a `Product` is associative.  For operands satisfying the
BTreeMap representation invariant, the canonical maps of
`Product (Product a b) c` and `Product a (Product b c)` are identical: sorted
key concatenation and y-map convolution with additive merging of colliding
keys associate. -/
theorem c5_flatten_product_assoc {F : Type} [CommRing F] (a b c : ProveExpression F)
    (ha : ProveExpression.ExprWF a) (hb : ProveExpression.ExprWF b)
    (hc : ProveExpression.ExprWF c) :
    ProveExpression.flatten
        (ProveExpression.Product (ProveExpression.Product a b) c) =
      ProveExpression.flatten
        (ProveExpression.Product a (ProveExpression.Product b c)) := by
  have hw1 : ProveExpression.ExprWF
      (ProveExpression.Product (ProveExpression.Product a b) c) := ⟨⟨ha, hb⟩, hc⟩
  have hw2 : ProveExpression.ExprWF
      (ProveExpression.Product a (ProveExpression.Product b c)) := ⟨ha, hb, hc⟩
  refine ProveExpression.flatToAlg_inj
    (ProveExpression.flatten_sorted _) (ProveExpression.flatten_sorted _) ?_ ?_ ?_
  · intro p hp
    rcases List.mem_append.1 hp with h | h
    · exact ProveExpression.flatten_keys_sorted _ p h
    · exact ProveExpression.flatten_keys_sorted _ p h
  · intro p hp
    rcases List.mem_append.1 hp with h | h
    · exact ProveExpression.flatten_values_sorted _ hw1 p h
    · exact ProveExpression.flatten_values_sorted _ hw2 p h
  · simp only [ProveExpression.flatToAlg_product]
    exact mul_assoc _ _ _

/-- First operand of the C5 witness: a fixed-column unit. -/
def c5wa : ProveExpression ℤ := ProveExpression.Unit (ProveExpressionUnit.Fixed 0 0)

/-- Second operand of the C5 witness: a `Y` node. -/
def c5wb : ProveExpression ℤ := ProveExpression.Y [(1, 2)]

/-- Third operand of the C5 witness: a sum of a rotated advice unit and a `Y`
node. -/
def c5wc : ProveExpression ℤ :=
  ProveExpression.Sum (ProveExpression.Unit (ProveExpressionUnit.Advice 1 (-1)))
    (ProveExpression.Y [(0, 3)])

/-- Witness for C5: the well-formedness hypotheses hold at concrete operands
and the flattenings of the two product shapes coincide. -/
theorem c5_flatten_product_assoc_witness :
    ProveExpression.ExprWF c5wa ∧ ProveExpression.ExprWF c5wb ∧
      ProveExpression.ExprWF c5wc ∧
      ProveExpression.flatten
          (ProveExpression.Product (ProveExpression.Product c5wa c5wb) c5wc) =
        ProveExpression.flatten
          (ProveExpression.Product c5wa (ProveExpression.Product c5wb c5wc)) :=
  ⟨by simp only [c5wa, ProveExpression.ExprWF, SKSorted],
   by simp only [c5wb, ProveExpression.ExprWF, SKSorted]; decide,
   by simp only [c5wc, ProveExpression.ExprWF, SKSorted]; decide,
   c5_flatten_product_assoc c5wa c5wb c5wc
     (by simp only [c5wa, ProveExpression.ExprWF, SKSorted])
     (by simp only [c5wb, ProveExpression.ExprWF, SKSorted]; decide)
     (by simp only [c5wc, ProveExpression.ExprWF, SKSorted]; decide)⟩

/-! ### GPU evaluation model (toward C1, C6, C7 and C8)

Host-side translations of `ProveExpression::_eval_gpu`,
`LookupProveExpression::_eval_gpu` and `ProveExpression::do_fft`
(evaluation_gpu.rs, lines 131-434).  Device state is the list of buffers in
creation order, each a list of optionally-written cells: memory allocated by
`unsafe create_buffer` starts uninitialized (`none`).  Modelled from the
spec: the OpenCL kernel bodies are not part of the repository's sources, so
each kernel's elementwise semantics follows sections 4.4-4.6 of the spec,
keyed by kernel name and the exact argument list the host passes; a launch
whose argument list does not match the kernel's signature writes nothing.
The data movement of one `radix_fft` pass is abstracted as a buffer copy:
no claim under audit depends on the transform's arithmetic, only on pass
scheduling (C8) and deferred shifts (C6). -/

section GpuModel

variable {F : Type} [CommRing F]

/-- Device state: the program's buffers in creation order; a `Buffer<F>` is
identified by its creation index. -/
structure GpuState (F : Type) where
  bufs : List (List (Option F))
  deriving DecidableEq

/-- `program.create_buffer::<F>(size)` (unsafe, uninitialized): a fresh
buffer of `size` unwritten cells, returned with the new state. -/
def createBuffer (st : GpuState F) (size : ℕ) : GpuState F × ℕ :=
  (⟨st.bufs ++ [List.replicate size none]⟩, st.bufs.length)

/-- `program.create_buffer_from_slice(&v)`: a fresh buffer holding `v`. -/
def createBufferFromSlice (st : GpuState F) (v : List F) : GpuState F × ℕ :=
  (⟨st.bufs ++ [v.map some]⟩, st.bufs.length)

/-- Contents of buffer `i`. -/
def bufGet (st : GpuState F) (i : ℕ) : List (Option F) :=
  st.bufs.getD i []

/-- Overwrite buffer `i`. -/
def bufSet (st : GpuState F) (i : ℕ) (v : List (Option F)) : GpuState F :=
  ⟨st.bufs.set i v⟩

/-- Rotation-shifted index into a buffer over the `size`-point extended
domain, wrapping around. -/
def rotIdx (size : ℕ) (i : ℕ) (r : ℤ) : ℕ :=
  (((i : ℤ) + r) % (size : ℤ)).toNat

/-- The kernels the host dispatches; `eval_sum` stands for the kernel the
source names via `format!` as the Bn256_Fr eval_sum kernel, and so on. -/
inductive KName where
  | eval_sum
  | eval_mul
  | eval_constant
  | eval_lctheta
  | eval_lcbeta
  | eval_addgamma
  | eval_fft_prepare
  | radix_fft
  deriving DecidableEq

/-- One kernel argument as the host passes it: a device buffer, a `u32`
scalar, an `i32` rotation, or a local scratch buffer. -/
inductive KArg where
  | buf (i : ℕ)
  | num (n : ℕ)
  | rot (r : ℤ)
  | loc (n : ℕ)
  deriving DecidableEq

/-- Elementwise binary kernel applying each child's deferred rotation inline
while combining (spec section 4.4, `Sum`/`Product` row; section 4.6 for the
fused lookup operators). -/
def evalBinary (st : GpuState F) (op : F → F → F) (res l r : ℕ) (lrot rrot : ℤ)
    (size : ℕ) : GpuState F :=
  bufSet st res ((List.range size).map (fun i =>
    match (bufGet st l).getD (rotIdx size i lrot) none,
          (bufGet st r).getD (rotIdx size i rrot) none with
    | some a, some b => some (op a b)
    | _, _ => none))

/-- Dispatch one kernel.  Each arm requires the exact argument list the
kernel's signature takes; anything else writes nothing. -/
def runKernel (st : GpuState F) (name : KName) (args : List KArg) : GpuState F :=
  match name, args with
  | .eval_sum, [.buf res, .buf l, .buf r, .rot lr, .rot rr, .num size] =>
      evalBinary st (fun a b => a + b) res l r lr rr size
  | .eval_mul, [.buf res, .buf l, .buf r, .rot lr, .rot rr, .num size] =>
      evalBinary st (fun a b => a * b) res l r lr rr size
  | .eval_lctheta, [.buf res, .buf l, .buf r, .rot lr, .rot rr, .num size, .buf th] =>
      (match (bufGet st th).getD 0 none with
       | some t => evalBinary st (fun a b => a + t * b) res l r lr rr size
       | none => bufSet st res ((List.range size).map (fun _ => none)))
  | .eval_lcbeta, [.buf res, .buf l, .buf r, .rot lr, .rot rr, .num size, .buf be] =>
      (match (bufGet st be).getD 0 none with
       | some t => evalBinary st (fun a b => a + t * b) res l r lr rr size
       | none => bufSet st res ((List.range size).map (fun _ => none)))
  | .eval_addgamma, [.buf l, .rot lr, .num size, .buf ga] =>
      bufSet st l ((List.range size).map (fun i =>
        match (bufGet st l).getD (rotIdx size i lr) none,
              (bufGet st ga).getD 0 none with
        | some a, some g => some (a + g)
        | _, _ => none))
  | .eval_constant, [.buf vals, .buf c] =>
      bufSet st vals ((bufGet st vals).map (fun _ => (bufGet st c).getD 0 none))
  | .eval_fft_prepare, [.buf origin, .buf vals, .num osize] =>
      bufSet st vals ((List.range (bufGet st vals).length).map (fun i =>
        if i < osize then (bufGet st origin).getD i none else some 0))
  | .radix_fft, [.buf src, .buf dst, .buf pq, .buf om, .loc sc, .num n, .num lp,
      .num dg, .num md] =>
      bufSet st dst (bufGet st src)
  | _, _ => st

/-- The part of the proving key the evaluator reads: domain parameters
`(k, extended_k)`, the extended-domain generator, and the fixed columns'
coefficient values (`pk.fixed_polys`). -/
structure Pk (F : Type) where
  k : ℕ
  extended_k : ℕ
  extended_omega : F
  fixed_polys : List (List F)

/-- Geometric tail of the `pq` table: `cur, cur·t, cur·t², ...` (`m` entries). -/
def buildPqAux (twiddle : F) : F → ℕ → List F
  | _, 0 => []
  | cur, m+1 => cur :: buildPqAux twiddle (cur * twiddle) m

/-- The `pq` twiddle table of `do_fft` (lines 383-394): `1 << max_deg >> 1`
entries, `pq[0] = 1`, and for `max_deg > 1` the geometric tail in the
twiddle.  Only reached with `max_deg ≥ 1`: at `max_deg = 0` the vector is
empty and the write `pq[0] = 1` panics, which `do_fft` models as `none`
before building the table. -/
def buildPq (max_deg : ℕ) (twiddle : F) : List F :=
  if 1 < max_deg then 1 :: buildPqAux twiddle twiddle (2 ^ max_deg / 2 - 1) else [1]

/-- `omegas[0] = ω`, `omegas[i] = omegas[i-1]²` (lines 397-401). -/
def buildOmegasAux : F → ℕ → List F
  | _, 0 => []
  | cur, m+1 => cur :: buildOmegasAux (cur ^ 2) m

/-- The 32-entry `omegas` table of `do_fft`. -/
def buildOmegas (omega : F) : List F :=
  buildOmegasAux omega 32

/-- Body of the while-loop of `do_fft` (lines 405-431): while
`log_p < log_n`, each pass consumes `deg = min max_deg (log_n − log_p)` bits
with `max_deg = min 8 log_n` (the value `do_fft` always passes), dispatches
one `radix_fft` kernel, advances `log_p` by `deg` and swaps the ping-pong
buffers.  Returns the final state, source buffer, destination buffer and
`log_p`.  The structural fuel bounds the iteration count; `doFftLoop` seeds
it with `log_n - log_p`, which is exact because every pass advances `log_p`
by at least one bit, so the fuel never runs out before the loop guard
fails. -/
def doFftLoopGo (log_n pq om : ℕ) : ℕ → GpuState F → ℕ → ℕ → ℕ →
    GpuState F × ℕ × ℕ × ℕ
  | 0, st, src, dst, log_p => (st, src, dst, log_p)
  | fuel+1, st, src, dst, log_p =>
    if log_p < log_n then
      doFftLoopGo log_n pq om fuel
        (runKernel st .radix_fft
          [.buf src, .buf dst, .buf pq, .buf om,
           .loc (2 ^ min (min 8 log_n) (log_n - log_p)), .num (2 ^ log_n),
           .num log_p, .num (min (min 8 log_n) (log_n - log_p)), .num (min 8 log_n)])
        dst src (log_p + min (min 8 log_n) (log_n - log_p))
    else (st, src, dst, log_p)

/-- The while-loop of `do_fft`, entered at `log_p`. -/
def doFftLoop (log_n pq om : ℕ) (st : GpuState F) (src dst log_p : ℕ) :
    GpuState F × ℕ × ℕ × ℕ :=
  doFftLoopGo log_n pq om (log_n - log_p) st src dst log_p

/-- The pass schedule of the `do_fft` loop: the successive `deg` values
consumed from `log_p`, with `max_deg = min 8 log_n` as in `do_fft`; same
fuel discipline as `doFftLoopGo`. -/
def fftPassesGo (log_n : ℕ) : ℕ → ℕ → List ℕ
  | 0, _ => []
  | fuel+1, log_p =>
    if log_p < log_n then
      min (min 8 log_n) (log_n - log_p) ::
        fftPassesGo log_n fuel (log_p + min (min 8 log_n) (log_n - log_p))
    else []

/-- The pass schedule of the whole loop entered at `log_p`. -/
def fftPasses (log_n log_p : ℕ) : List ℕ :=
  fftPassesGo log_n (log_n - log_p) log_p

/-- Rust `ProveExpression::do_fft` (lines 361-434): allocate the ping-pong
destination, build the `pq` and `omegas` tables, run the pass loop, return
the final source buffer.  `none` models the `pq[0]` index panic at
`extended_k = 0`, where the `pq` vector is empty. -/
def do_fft (pk : Pk F) (st : GpuState F) (values : ℕ) : Option (ℕ × GpuState F) :=
  let log_n := pk.extended_k
  let n := 2 ^ log_n
  let omega := pk.extended_omega
  let max_deg := min 8 log_n
  let p1 := createBuffer st n
  if 2 ^ max_deg / 2 = 0 then none
  else
    let twiddle := omega ^ (n / 2 ^ max_deg)
    let p2 := createBufferFromSlice p1.1 (buildPq max_deg twiddle)
    let p3 := createBufferFromSlice p2.1 (buildOmegas omega)
    let r := doFftLoop log_n p2.2 p3.2 p3.1 values p1.2 0
    some (r.2.1, r.1)

/-- Modelled from the spec: `domain.coeff_to_extended_without_fft` lives
outside the packaged sources.  Section 4.4 specifies the `Unit` pipeline as
"zero-extend ... then forward-transform"; the zero-extension is performed by
the `eval_fft_prepare` kernel, so the host-side conversion is modelled as the
identity on the coefficient values. -/
def coeff_to_extended_without_fft (pk : Pk F) (v : List F) : List F := v

/-- `ys.keys().max()` of the Y branch (line 304): `None` on an empty map. -/
def ysMaxKey (m : List (ℕ × F)) : Option ℕ :=
  match m with
  | [] => none
  | p :: t => some (t.foldl (fun acc q => max acc q.1) p.1)

/-- Body of the cache-extension loop of the Y branch (lines 305-307):
each step pushes `y[1] * y.last()`; indexing `y[1]` or calling `last()` on a
too-short cache panics (`none`). -/
def extendYsGo : ℕ → List F → Option (List F)
  | 0, y => some y
  | k+1, y =>
    match y.get? 1, y.getLast? with
    | some y1, some yl => extendYsGo k (y ++ [y1 * yl])
    | _, _ => none

/-- The cache-extension loop: the iteration count is fixed before the loop
from the starting length (`for _ in (y.len() as u32)..max_y_order + 1`). -/
def extendYs (y : List F) (mo : ℕ) : Option (List F) :=
  extendYsGo (mo + 1 - y.length) y

/-- The column fetch of the `Unit` branch (lines 323-341): the referenced
column's coefficient values and its rotation; a missing column index panics
(`none`). -/
def unitPoly (pk : Pk F) (advice inst : List (List F)) :
    ProveExpressionUnit → Option (List F × ℤ)
  | .Fixed ci r => (pk.fixed_polys.get? ci).map (fun v => (v, r))
  | .Advice ci r => (advice.get? ci).map (fun v => (v, r))
  | .Instance ci r => (inst.get? ci).map (fun v => (v, r))

/-- Rust `ProveExpression::_eval_gpu` (lines 244-358): returns the updated
device state, the updated y-power cache, the result buffer and its deferred
shift. -/
def ProveExpression._eval_gpu (pk : Pk F) (advice inst : List (List F)) :
    ProveExpression F → GpuState F → List F → Option (GpuState F × List F × ℕ × ℤ)
  | .Sum l r, st, y =>
    match ProveExpression._eval_gpu pk advice inst l st y with
    | none => none
    | some (st1, y1, lb, ls) =>
      match ProveExpression._eval_gpu pk advice inst r st1 y1 with
      | none => none
      | some (st2, y2, rb, rs) =>
        let size := 2 ^ pk.extended_k
        let p := createBuffer st2 size
        some (runKernel p.1 .eval_sum
          [.buf p.2, .buf lb, .buf rb, .rot ls, .rot rs, .num size], y2, p.2, 0)
  | .Product l r, st, y =>
    match ProveExpression._eval_gpu pk advice inst l st y with
    | none => none
    | some (st1, y1, lb, ls) =>
      match ProveExpression._eval_gpu pk advice inst r st1 y1 with
      | none => none
      | some (st2, y2, rb, rs) =>
        let size := 2 ^ pk.extended_k
        let p := createBuffer st2 size
        some (runKernel p.1 .eval_mul
          [.buf p.2, .buf lb, .buf rb, .rot ls, .rot rs, .num size], y2, p.2, 0)
  | .Y ysm, st, y =>
    match ysMaxKey ysm with
    | none => none
    | some mo =>
      match extendYs y mo with
      | none => none
      | some y2 =>
        let c := ysm.foldl (fun acc p => acc + y2.getD p.1 0 * p.2) 0
        let size := 2 ^ pk.extended_k
        let p := createBuffer st size
        let q := createBufferFromSlice p.1 [c]
        some (runKernel q.1 .eval_constant [.buf p.2, .buf q.2], y2, p.2, 0)
  | .Unit u, st, y =>
    let size := 2 ^ pk.extended_k
    let origin_size := 2 ^ pk.k
    let rot_scale : ℤ := 2 ^ (pk.extended_k - pk.k)
    let p := createBuffer st size
    match unitPoly pk advice inst u with
    | none => none
    | some (ov, rotation) =>
      let ov2 := coeff_to_extended_without_fft pk ov
      let q := createBufferFromSlice p.1 ov2
      let st2 := runKernel q.1 .eval_fft_prepare [.buf q.2, .buf p.2, .num origin_size]
      match do_fft pk st2 p.2 with
      | none => none
      | some (out, st3) => some (st3, y, out, rotation * rot_scale)

/-- Rust `LookupProveExpression::_eval_gpu` (lines 131-211).  In the
`LcBeta` arm the source omits `.arg(&res)` (lines 183-189): the launch
passes only `(l, r, l_rot, r_rot, size, beta)`, so the fresh result buffer
is never handed to the kernel, and is returned unwritten. -/
def LookupProveExpression._eval_gpu (pk : Pk F) (advice inst : List (List F))
    (beta theta gamma : F) :
    LookupProveExpression F → GpuState F → List F → Option (GpuState F × List F × ℕ × ℤ)
  | .Expression e, st, y => ProveExpression._eval_gpu pk advice inst e st y
  | .LcTheta l r, st, y =>
    match LookupProveExpression._eval_gpu pk advice inst beta theta gamma l st y with
    | none => none
    | some (st1, y1, lb, ls) =>
      match LookupProveExpression._eval_gpu pk advice inst beta theta gamma r st1 y1 with
      | none => none
      | some (st2, y2, rb, rs) =>
        let size := 2 ^ pk.extended_k
        let p := createBuffer st2 size
        let q := createBufferFromSlice p.1 [theta]
        some (runKernel q.1 .eval_lctheta
          [.buf p.2, .buf lb, .buf rb, .rot ls, .rot rs, .num size, .buf q.2],
          y2, p.2, 0)
  | .LcBeta l r, st, y =>
    match LookupProveExpression._eval_gpu pk advice inst beta theta gamma l st y with
    | none => none
    | some (st1, y1, lb, ls) =>
      match LookupProveExpression._eval_gpu pk advice inst beta theta gamma r st1 y1 with
      | none => none
      | some (st2, y2, rb, rs) =>
        let size := 2 ^ pk.extended_k
        let p := createBuffer st2 size
        let q := createBufferFromSlice p.1 [beta]
        some (runKernel q.1 .eval_lcbeta
          [.buf lb, .buf rb, .rot ls, .rot rs, .num size, .buf q.2],
          y2, p.2, 0)
  | .AddGamma l, st, y =>
    match LookupProveExpression._eval_gpu pk advice inst beta theta gamma l st y with
    | none => none
    | some (st1, y1, lb, ls) =>
      let size := 2 ^ pk.extended_k
      let q := createBufferFromSlice st1 [gamma]
      some (runKernel q.1 .eval_addgamma [.buf lb, .rot ls, .num size, .buf q.2],
        y1, lb, 0)

end GpuModel

theorem unitPoly_rot {F : Type} {pk : Pk F} {advice inst : List (List F)}
    {u : ProveExpressionUnit} {ov : List F} {rotation : ℤ}
    (h : unitPoly pk advice inst u = some (ov, rotation)) : rotation = u.rot := by
  cases u with
  | Fixed ci r =>
    simp only [unitPoly] at h
    rcases Option.map_eq_some'.1 h with ⟨v, hv, hvr⟩
    exact (congrArg Prod.snd hvr).symm
  | Advice ci r =>
    simp only [unitPoly] at h
    rcases Option.map_eq_some'.1 h with ⟨v, hv, hvr⟩
    exact (congrArg Prod.snd hvr).symm
  | Instance ci r =>
    simp only [unitPoly] at h
    rcases Option.map_eq_some'.1 h with ⟨v, hv, hvr⟩
    exact (congrArg Prod.snd hvr).symm

/-- C6: the deferred shift returned by `ProveExpression::_eval_gpu` is the
node's rotation times `rot_scale = 2^(extended_k − k)` for a `Unit` node,
and `0` for `Sum`, `Product` and `Y` nodes. -/
theorem c6_deferred_shift {F : Type} [CommRing F] (pk : Pk F)
    (advice inst : List (List F)) (e : ProveExpression F) (st : GpuState F)
    (y : List F) (st' : GpuState F) (y' : List F) (buf : ℕ) (sh : ℤ)
    (h : ProveExpression._eval_gpu pk advice inst e st y = some (st', y', buf, sh)) :
    sh = match e with
      | .Unit u => u.rot * 2 ^ (pk.extended_k - pk.k)
      | _ => 0 := by
  cases e with
  | Sum l r =>
    simp only [ProveExpression._eval_gpu] at h
    split at h
    · exact Option.noConfusion h
    · split at h
      · exact Option.noConfusion h
      · exact (congrArg (fun t : GpuState F × List F × ℕ × ℤ => t.2.2.2)
          (Option.some.inj h)).symm
  | Product l r =>
    simp only [ProveExpression._eval_gpu] at h
    split at h
    · exact Option.noConfusion h
    · split at h
      · exact Option.noConfusion h
      · exact (congrArg (fun t : GpuState F × List F × ℕ × ℤ => t.2.2.2)
          (Option.some.inj h)).symm
  | Y ysm =>
    simp only [ProveExpression._eval_gpu] at h
    split at h
    · exact Option.noConfusion h
    · split at h
      · exact Option.noConfusion h
      · exact (congrArg (fun t : GpuState F × List F × ℕ × ℤ => t.2.2.2)
          (Option.some.inj h)).symm
  | Unit u =>
    simp only [ProveExpression._eval_gpu] at h
    split at h
    · exact Option.noConfusion h
    · rename_i ov rotation heq
      split at h
      · exact Option.noConfusion h
      · have hrot := unitPoly_rot heq
        have hsh : sh = rotation * 2 ^ (pk.extended_k - pk.k) :=
          (congrArg (fun t : GpuState F × List F × ℕ × ℤ => t.2.2.2)
            (Option.some.inj h)).symm
        exact hsh.trans (by rw [hrot])

/-- Proving key of the C6 witness: `k = 0`, `extended_k = 1`. -/
def c6pk : Pk ℤ := ⟨0, 1, 1, []⟩

/-- The C6 witness node: an advice unit at rotation 3. -/
def c6eu : ProveExpression ℤ := ProveExpression.Unit (ProveExpressionUnit.Advice 0 3)

/-- The C6 witness evaluation result. -/
def c6tu : GpuState ℤ × List ℤ × ℕ × ℤ :=
  (ProveExpression._eval_gpu c6pk [[3]] [] c6eu ⟨[]⟩ [1, 2]).getD (⟨[]⟩, [], 0, 0)

/-- Witness for C6: evaluating a concrete `Unit` node under a concrete
proving key succeeds and the theorem yields its deferred shift
`rotation × 2^(extended_k − k) = 3 × 2`. -/
theorem c6_deferred_shift_witness :
    c6tu.2.2.2 = (ProveExpressionUnit.Advice 0 3).rot * 2 ^ (c6pk.extended_k - c6pk.k) :=
  c6_deferred_shift c6pk [[3]] [] c6eu ⟨[]⟩ [1, 2] c6tu.1 c6tu.2.1 c6tu.2.2.1
    c6tu.2.2.2 rfl

/-! ### The pass schedule of the `do_fft` loop (toward C8) -/

section FftSchedule

variable {F : Type} [CommRing F]

theorem fftPassesGo_sum (log_n : ℕ) :
    ∀ fuel log_p, log_n - log_p ≤ fuel →
      (fftPassesGo log_n fuel log_p).sum = log_n - log_p := by
  intro fuel
  induction fuel with
  | zero =>
    intro log_p h
    simp only [fftPassesGo, List.sum_nil]
    omega
  | succ fuel ih =>
    intro log_p h
    simp only [fftPassesGo]
    by_cases hlt : log_p < log_n
    · rw [if_pos hlt, List.sum_cons, ih _ (by omega)]
      omega
    · rw [if_neg hlt, List.sum_nil]
      omega

theorem fftPassesGo_mem (log_n : ℕ) :
    ∀ fuel log_p, ∀ d ∈ fftPassesGo log_n fuel log_p, 1 ≤ d ∧ d ≤ min 8 log_n := by
  intro fuel
  induction fuel with
  | zero =>
    intro log_p d hd
    exact absurd hd (List.not_mem_nil d)
  | succ fuel ih =>
    intro log_p d hd
    simp only [fftPassesGo] at hd
    by_cases hlt : log_p < log_n
    · rw [if_pos hlt] at hd
      rcases List.mem_cons.1 hd with rfl | hd'
      · constructor <;> omega
      · exact ih _ d hd'
    · rw [if_neg hlt] at hd
      exact absurd hd (List.not_mem_nil d)

theorem ceil_div_step (md R : ℕ) (h1 : 1 ≤ md) (hR : 1 ≤ R) :
    (R - min md R + md - 1) / md + 1 = (R + md - 1) / md := by
  by_cases hc : R ≤ md
  · have hmin : R - min md R = 0 := by omega
    rw [hmin, Nat.div_eq_of_lt (by omega)]
    exact (Nat.div_eq_of_lt_le (by omega) (by omega)).symm
  · have hmin : R - min md R = R - md := by omega
    rw [hmin]
    have e1 : R - md + md - 1 = R - 1 := by omega
    have e2 : R + md - 1 = R - 1 + md := by omega
    rw [e1, e2, Nat.add_div_right _ (by omega)]

theorem fftPassesGo_length (log_n : ℕ) (hpos : 0 < log_n) :
    ∀ fuel log_p, log_n - log_p ≤ fuel →
      (fftPassesGo log_n fuel log_p).length =
        (log_n - log_p + min 8 log_n - 1) / min 8 log_n := by
  intro fuel
  induction fuel with
  | zero =>
    intro log_p h
    have h0 : log_n - log_p = 0 := by omega
    simp only [fftPassesGo, List.length_nil, h0]
    exact (Nat.div_eq_of_lt (by omega)).symm
  | succ fuel ih =>
    intro log_p h
    simp only [fftPassesGo]
    by_cases hlt : log_p < log_n
    · rw [if_pos hlt, List.length_cons, ih _ (by omega)]
      have harg : log_n - (log_p + min (min 8 log_n) (log_n - log_p)) =
          log_n - log_p - min (min 8 log_n) (log_n - log_p) := by omega
      rw [harg]
      exact ceil_div_step (min 8 log_n) (log_n - log_p) (by omega) (by omega)
    · rw [if_neg hlt, List.length_nil]
      have h0 : log_n - log_p = 0 := by omega
      rw [h0]
      exact (Nat.div_eq_of_lt (by omega)).symm

theorem fftPassesGo_deg (log_n : ℕ) :
    ∀ fuel log_p i, i < (fftPassesGo log_n fuel log_p).length →
      (fftPassesGo log_n fuel log_p).getD i 0 =
        min (min 8 log_n)
          (log_n - (log_p + ((fftPassesGo log_n fuel log_p).take i).sum)) := by
  intro fuel
  induction fuel with
  | zero =>
    intro log_p i h
    exact absurd h (by simp [fftPassesGo])
  | succ fuel ih =>
    intro log_p i h
    simp only [fftPassesGo] at h ⊢
    by_cases hlt : log_p < log_n
    · simp only [if_pos hlt] at h ⊢
      cases i with
      | zero => simp
      | succ i =>
        have h' : i < (fftPassesGo log_n fuel
            (log_p + min (min 8 log_n) (log_n - log_p))).length := by
          rw [List.length_cons] at h
          omega
        rw [List.getD_cons_succ, List.take_succ_cons, List.sum_cons, ih _ i h']
        omega
    · simp only [if_neg hlt] at h
      exact absurd h (by simp)

theorem doFftLoopGo_spec (log_n pq om : ℕ) :
    ∀ fuel (st : GpuState F) (src dst log_p : ℕ),
      (doFftLoopGo log_n pq om fuel st src dst log_p).2.2.2 =
          log_p + (fftPassesGo log_n fuel log_p).sum ∧
        (doFftLoopGo log_n pq om fuel st src dst log_p).2.1 =
          (if (fftPassesGo log_n fuel log_p).length % 2 = 0 then src else dst) := by
  intro fuel
  induction fuel with
  | zero =>
    intro st src dst log_p
    simp [doFftLoopGo, fftPassesGo]
  | succ fuel ih =>
    intro st src dst log_p
    simp only [doFftLoopGo, fftPassesGo]
    by_cases hlt : log_p < log_n
    · simp only [if_pos hlt]
      have hih := ih (runKernel st .radix_fft
          [.buf src, .buf dst, .buf pq, .buf om,
           .loc (2 ^ min (min 8 log_n) (log_n - log_p)), .num (2 ^ log_n),
           .num log_p, .num (min (min 8 log_n) (log_n - log_p)), .num (min 8 log_n)])
        dst src (log_p + min (min 8 log_n) (log_n - log_p))
      constructor
      · rw [hih.1, List.sum_cons]
        omega
      · rw [hih.2, List.length_cons]
        by_cases hp : (fftPassesGo log_n fuel
            (log_p + min (min 8 log_n) (log_n - log_p))).length % 2 = 0
        · rw [if_pos hp, if_neg (by omega)]
        · rw [if_neg hp, if_pos (by omega)]
    · simp only [if_neg hlt]
      simp

end FftSchedule

/-- C8: the `do_fft` pass loop terminates for every `extended_k`.  Starting
from `log_p = 0` with `max_deg = min 8 extended_k`, every pass consumes
`deg = min max_deg (extended_k − log_p)` bits with `1 ≤ deg ≤ max_deg`, the
loop exits with `log_p` exactly `extended_k` after
`⌈extended_k / max_deg⌉ = (extended_k + max_deg − 1) / max_deg` passes (zero
passes when `extended_k = 0`), and each pass swaps the ping-pong buffers, so
the loop's final source buffer is the original source at an even pass count
and the original destination at an odd one. -/
theorem c8_do_fft_pass_loop {F : Type} [CommRing F] (ek : ℕ)
    (st : GpuState F) (pq om src dst : ℕ) :
    (∀ d ∈ fftPasses ek 0, 1 ≤ d ∧ d ≤ min 8 ek) ∧
    (∀ i, i < (fftPasses ek 0).length →
      (fftPasses ek 0).getD i 0 =
        min (min 8 ek) (ek - ((fftPasses ek 0).take i).sum)) ∧
    (fftPasses ek 0).sum = ek ∧
    (ek = 0 → fftPasses ek 0 = []) ∧
    (0 < ek → (fftPasses ek 0).length = (ek + min 8 ek - 1) / min 8 ek) ∧
    (doFftLoop ek pq om st src dst 0).2.2.2 = ek ∧
    (doFftLoop ek pq om st src dst 0).2.1 =
      (if (fftPasses ek 0).length % 2 = 0 then src else dst) := by
  refine ⟨fftPassesGo_mem ek (ek - 0) 0, ?_, ?_, ?_, ?_, ?_, ?_⟩
  · intro i h
    have := fftPassesGo_deg ek (ek - 0) 0 i h
    exact this.trans (by rw [Nat.zero_add]; rfl)
  · exact fftPassesGo_sum ek (ek - 0) 0 (le_refl _)
  · intro h
    subst h
    rfl
  · intro h
    exact fftPassesGo_length ek h (ek - 0) 0 (le_refl _)
  · have h := (doFftLoopGo_spec ek pq om (ek - 0) st src dst 0).1
    exact h.trans (by rw [fftPassesGo_sum ek (ek - 0) 0 (le_refl _)]; omega)
  · exact (doFftLoopGo_spec ek pq om (ek - 0) st src dst 0).2

/-! ### The LcBeta launch (C1) -/

/-- Proving key of the C1 counterexample: `k = extended_k = 0`, a one-point
extended domain. -/
def c1pk : Pk ℤ := ⟨0, 0, 1, []⟩

/-- The C1 counterexample input: `LcBeta(Expression(Y{0 ↦ 1}),
Expression(Y{0 ↦ 1}))`, whose spec value at every point is `1 + β·1`. -/
def c1e : LookupProveExpression ℤ :=
  LookupProveExpression.LcBeta
    (LookupProveExpression.Expression (ProveExpression.Y [(0, 1)]))
    (LookupProveExpression.Expression (ProveExpression.Y [(0, 1)]))

/-- Contents of the buffer `LcBeta` returns, with its deferred shift, at
`β = 7`, `θ = 5`, `γ = 3`, `y = 2`. -/
def c1out : Option (List (Option ℤ) × ℤ) :=
  match LookupProveExpression._eval_gpu c1pk [] [] 7 5 3 c1e ⟨[]⟩ [1, 2] with
  | some (st, _, b, s) => some (bufGet st b, s)
  | none => none

/-- C1 (refuted: code bug).  The `LcBeta` arm creates `res` but omits
`.arg(&res)` from the kernel launch (evaluation_gpu.rs lines 183-189, contrast
the `LcTheta` arm's lines 161-169), so the kernel is never given the result
buffer and `res` is returned unwritten: on the concrete input its single cell
is still uninitialized, not the spec value `eval l + β·eval r = 1 + 7·1`.
The deferred shift 0 does match the claim. -/
theorem c1_lcbeta_unwritten :
    c1out = some ([none], 0) ∧ c1out ≠ some ([some (1 + 7 * 1)], 0) := by
  constructor
  · rfl
  · decide

/-- Model validation for C1: on the same concrete input the sibling
`LcTheta`, whose launch does pass the result buffer, writes the spec value
`eval l + θ·eval r = 1 + 5·1` at every point of the extended domain. -/
def lcthetaOut : Option (List (Option ℤ) × ℤ) :=
  match LookupProveExpression._eval_gpu c1pk [] [] 7 5 3
    (LookupProveExpression.LcTheta
      (LookupProveExpression.Expression (ProveExpression.Y [(0, 1)]))
      (LookupProveExpression.Expression (ProveExpression.Y [(0, 1)]))) ⟨[]⟩ [1, 2] with
  | some (st, _, b, s) => some (bufGet st b, s)
  | none => none

theorem lctheta_model_writes : lcthetaOut = some ([some (1 + 5 * 1)], 0) := by rfl

/-! ### The y-power cache (toward C7) -/

section YCache

variable {F : Type} [CommRing F]

/-- The y-power cache invariant: entry `i` holds `y₀^i`. -/
def CacheInv (y0 : F) (cache : List F) : Prop :=
  cache = (List.range cache.length).map (fun i => y0 ^ i)

theorem cacheInv_seed (y0 : F) : CacheInv y0 [1, y0] := by
  unfold CacheInv
  simp [List.range_succ]

theorem cacheInv_getD {y0 : F} {c : List F} (h : CacheInv y0 c) {i : ℕ}
    (hi : i < c.length) : c.getD i 0 = y0 ^ i := by
  conv_lhs => rw [h]
  rw [List.getD_eq_getElem?_getD, List.getElem?_map, List.getElem?_range hi,
    Option.map_some', Option.getD_some]

theorem extendYsGo_inv {y0 : F} :
    ∀ k {c : List F}, CacheInv y0 c → 2 ≤ c.length →
      ∃ c', extendYsGo k c = some c' ∧ CacheInv y0 c' ∧ c'.length = c.length + k := by
  intro k
  induction k with
  | zero =>
    intro c h hl
    exact ⟨c, rfl, h, by omega⟩
  | succ k ih =>
    intro c h hl
    have h1 : c.get? 1 = some (y0 ^ 1) := by
      conv_lhs => rw [h]
      rw [List.get?_eq_getElem?, List.getElem?_map, List.getElem?_range (by omega),
        Option.map_some']
    have hlast : c.getLast? = some (y0 ^ (c.length - 1)) := by
      conv_lhs => rw [h]
      rw [List.getLast?_eq_getElem?]
      simp only [List.length_map, List.length_range]
      rw [List.getElem?_map, List.getElem?_range (by omega), Option.map_some']
    have hv : y0 ^ 1 * y0 ^ (c.length - 1) = y0 ^ c.length := by
      rw [← pow_add]
      congr 1
      omega
    have happ : CacheInv y0 (c ++ [y0 ^ 1 * y0 ^ (c.length - 1)]) := by
      unfold CacheInv
      rw [hv, List.length_append]
      simp only [List.length_singleton]
      rw [List.range_succ, List.map_append, List.map_singleton, ← h]
    rcases ih happ (by simp only [List.length_append, List.length_singleton]; omega)
      with ⟨c', hc', hinv', hlen'⟩
    refine ⟨c', ?_, hinv', ?_⟩
    · simp only [extendYsGo, h1, hlast]
      exact hc'
    · simp only [List.length_append, List.length_singleton] at hlen'
      omega

theorem foldlMax_le (t : List (ℕ × F)) :
    ∀ acc : ℕ, acc ≤ t.foldl (fun a q => max a q.1) acc ∧
      ∀ q ∈ t, q.1 ≤ t.foldl (fun a q => max a q.1) acc := by
  induction t with
  | nil =>
    intro acc
    exact ⟨le_refl _, fun q hq => absurd hq (List.not_mem_nil q)⟩
  | cons p t ih =>
    intro acc
    constructor
    · exact le_trans (le_max_left acc p.1) (ih (max acc p.1)).1
    · intro q hq
      rcases List.mem_cons.1 hq with rfl | hq'
      · exact le_trans (le_max_right acc q.1) (ih (max acc q.1)).1
      · exact (ih (max acc p.1)).2 q hq'

theorem ysMaxKey_le {m : List (ℕ × F)} {mo : ℕ} (h : ysMaxKey m = some mo) :
    ∀ p ∈ m, p.1 ≤ mo := by
  cases m with
  | nil => exact fun p hp => absurd hp (List.not_mem_nil p)
  | cons p t =>
    intro q hq
    simp only [ysMaxKey] at h
    have hmo := Option.some.inj h
    subst hmo
    rcases List.mem_cons.1 hq with rfl | hq'
    · exact (foldlMax_le t q.1).1
    · exact (foldlMax_le t p.1).2 q hq'

theorem foldl_dot {y0 : F} {y2 : List F} (hCI : CacheInv y0 y2) :
    ∀ (m : List (ℕ × F)), (∀ p ∈ m, p.1 < y2.length) → ∀ a : F,
      m.foldl (fun acc p => acc + y2.getD p.1 0 * p.2) a =
        a + (m.map (fun p => p.2 * y0 ^ p.1)).sum := by
  intro m
  induction m with
  | nil =>
    intro hb a
    simp
  | cons p t ih =>
    intro hb a
    rw [List.foldl_cons, ih (fun q hq => hb q (List.mem_cons_of_mem p hq))]
    rw [cacheInv_getD hCI (hb p (List.mem_cons_self p t))]
    simp only [List.map_cons, List.sum_cons]
    ring

theorem getD_append_self {A : Type} (l : List A) (a : A) (t : List A) (d : A) :
    (l ++ a :: t).getD l.length d = a := by
  rw [List.getD_eq_getElem?_getD, List.getElem?_append_right (le_refl _)]
  simp

theorem getD_append2_self {A : Type} (l : List A) (a b : A) (d : A) :
    (l ++ a :: [b]).getD (l.length + 1) d = b := by
  rw [List.getD_eq_getElem?_getD, List.getElem?_append_right (by omega)]
  simp

theorem getD_set_self {A : Type} (l : List A) (i : ℕ) (v : A) (d : A)
    (h : i < l.length) : (l.set i v).getD i d = v := by
  rw [List.getD_eq_getElem?_getD, List.getElem?_set_self h]
  rfl

end YCache

/-- C7: the y-power cache.  If the cache satisfies `cache[i] = y₀^i` (as the
seeding `[1, y]` does) and holds at least the two seeded entries, then a
successful `Y`-node evaluation preserves the invariant while extending the
cache exactly to the node's maximum stored order, and the scalar it
broadcast-fills into the result buffer is the dot product
`Σ coeff·y₀^order` over the node's coefficient mapping. -/
theorem c7_y_power_cache {F : Type} [CommRing F] (pk : Pk F)
    (advice inst : List (List F)) (ysm : List (ℕ × F)) (st : GpuState F)
    (cache : List F) (y0 : F)
    (hinv : CacheInv y0 cache) (hlen : 2 ≤ cache.length)
    (st' : GpuState F) (cache' : List F) (buf : ℕ) (sh : ℤ)
    (h : ProveExpression._eval_gpu pk advice inst (ProveExpression.Y ysm) st cache =
      some (st', cache', buf, sh)) :
    CacheInv y0 cache' ∧
    (∀ mo, ysMaxKey ysm = some mo → cache'.length = max cache.length (mo + 1)) ∧
    bufGet st' buf = List.replicate (2 ^ pk.extended_k) (some (evalYs y0 ysm)) := by
  simp only [ProveExpression._eval_gpu] at h
  split at h
  · exact Option.noConfusion h
  · rename_i mo hmo
    split at h
    · exact Option.noConfusion h
    · rename_i y2 hext
      obtain ⟨h1, h2⟩ := Prod.mk.inj (Option.some.inj h)
      obtain ⟨h2a, h2b⟩ := Prod.mk.inj h2
      obtain ⟨h3, h4⟩ := Prod.mk.inj h2b
      subst h1
      subst h2a
      subst h3
      subst h4
      unfold extendYs at hext
      rcases extendYsGo_inv (mo + 1 - cache.length) hinv hlen with ⟨c', hgo, hinv', hlen'⟩
      rw [hgo] at hext
      have hcy := Option.some.inj hext
      subst hcy
      have hkeys : ∀ p ∈ ysm, p.1 < c'.length := by
        intro p hp
        have := ysMaxKey_le hmo p hp
        omega
      have hc : ysm.foldl (fun acc p => acc + c'.getD p.1 0 * p.2) 0 = evalYs y0 ysm := by
        rw [foldl_dot hinv' ysm hkeys 0, zero_add]
        rfl
      refine ⟨hinv', ?_, ?_⟩
      · intro mo' hmo'
        have hmm := Option.some.inj (hmo.symm.trans hmo')
        subst hmm
        omega
      · simp only [runKernel, createBuffer, createBufferFromSlice, bufGet, bufSet,
          List.singleton_append, List.append_assoc, List.cons_append, List.nil_append]
        rw [hc]
        simp only [List.length_append, List.length_cons, List.length_nil]
        rw [getD_append_self, getD_append2_self]
        rw [getD_set_self _ _ _ _ (by
          simp only [List.length_append, List.length_cons, List.length_nil]
          omega)]
        simp [List.map_replicate]

/-- Proving key of the C7 witness: a one-point extended domain. -/
def c7pk : Pk ℤ := ⟨0, 0, 1, []⟩

/-- The C7 witness coefficient mapping: `{0 ↦ 3, 2 ↦ 5}`. -/
def c7ys : List (ℕ × ℤ) := [(0, 3), (2, 5)]

/-- The C7 witness evaluation result, at cache `[1, 2]` (so `y = 2`). -/
def c7tu : GpuState ℤ × List ℤ × ℕ × ℤ :=
  (ProveExpression._eval_gpu c7pk [] [] (ProveExpression.Y c7ys) ⟨[]⟩ [1, 2]).getD
    (⟨[]⟩, [], 0, 0)

/-- Witness for C7: at the seeded cache `[1, 2]` the hypotheses hold, the
evaluation succeeds, the cache extends to `[1, 2, 4]` (maximum order 2) still
satisfying the invariant, and the broadcast scalar is
`3·2^0 + 5·2^2 = 23`. -/
theorem c7_y_power_cache_witness :
    CacheInv (2 : ℤ) [1, 2] ∧ 2 ≤ ([1, 2] : List ℤ).length ∧
      (CacheInv (2 : ℤ) c7tu.2.1 ∧
        (∀ mo, ysMaxKey c7ys = some mo →
          c7tu.2.1.length = max ([1, 2] : List ℤ).length (mo + 1)) ∧
        bufGet c7tu.1 c7tu.2.2.1 =
          List.replicate (2 ^ c7pk.extended_k) (some (evalYs (2 : ℤ) c7ys))) :=
  ⟨by unfold CacheInv; decide, by decide,
   c7_y_power_cache c7pk [] [] c7ys ⟨[]⟩ [1, 2] 2 (by unfold CacheInv; decide)
     (by decide) c7tu.1 c7tu.2.1 c7tu.2.2.1 c7tu.2.2.2 rfl⟩

/-! ### Non-empty Y payloads along the construction path (toward C9) -/

namespace ProveExpression

section YNonempty

variable {F : Type} [CommRing F]

/-- Every `Y` node of the tree carries a non-empty coefficient mapping. -/
def YNE : ProveExpression F → Prop
  | .Unit _ => True
  | .Sum l r => YNE l ∧ YNE r
  | .Product l r => YNE l ∧ YNE r
  | .Y m => m ≠ []

/-- Every `Y` node's `keys().max()` lookup succeeds: the `unwrap` at the
head of the Y branch of `_eval_gpu` (line 304) cannot panic. -/
def YSafe : ProveExpression F → Prop
  | .Unit _ => True
  | .Sum l r => YSafe l ∧ YSafe r
  | .Product l r => YSafe l ∧ YSafe r
  | .Y m => (ysMaxKey m).isSome

theorem YNE_YSafe : ∀ {e : ProveExpression F}, YNE e → YSafe e := by
  intro e
  induction e with
  | Unit u => intro h; exact trivial
  | Sum l r ihl ihr => intro h; exact ⟨ihl h.1, ihr h.2⟩
  | Product l r ihl ihr => intro h; exact ⟨ihl h.1, ihr h.2⟩
  | Y m =>
    intro h
    show (ysMaxKey m).isSome
    cases m with
    | nil => exact absurd rfl h
    | cons p t => rfl

theorem ____reconstruct_YNE (u : ProveExpressionUnit) :
    ∀ c, YNE (____reconstruct u c : ProveExpression F) := by
  intro c
  induction c with
  | zero => exact trivial
  | succ m ih =>
    cases m with
    | zero => exact trivial
    | succ k => exact ⟨trivial, ih⟩

theorem __reconstruct_YNE (us : List (ProveExpressionUnit × ℕ)) (coeff : List (ℕ × F))
    (h : coeff ≠ []) : YNE (__reconstruct us coeff) := by
  induction us with
  | nil => exact h
  | cons p t ih => exact ⟨ih, ____reconstruct_YNE p.1 p.2⟩

theorem _reconstruct_YNE :
    ∀ (n : ℕ) (tree : List (RPair F)), 2 * msum tree + tree.length ≤ n →
      (∀ p ∈ tree, p.2 ≠ []) →
      ∀ t, _reconstruct tree = some t → YNE t := by
  intro n
  induction n with
  | zero =>
    intro tree hn hv t ht
    cases tree with
    | nil =>
      rw [_reconstruct.eq_def] at ht
      simp [countTree] at ht
    | cons a t' => simp at hn
  | succ n ih =>
    intro tree hn hv t ht
    match tree with
    | [] =>
      rw [_reconstruct.eq_def] at ht
      simp [countTree] at ht
    | [p] =>
      rw [_reconstruct_single p] at ht
      have := Option.some.inj ht
      subst this
      exact __reconstruct_YNE p.1 p.2 (hv p (by simp))
    | a :: b :: rest =>
      rw [_reconstruct.eq_def] at ht
      split at ht
      · rename_i p hcon
        simp at hcon
      · split at ht
        · exact Option.noConfusion ht
        · rename_i u0 c0 cm hcm
          split at ht
          · exact Option.noConfusion ht
          · rename_i l r hp
            split at ht
            · exact Option.noConfusion ht
            · rename_i lt htl
              rcases partitionPairs_char hp with ⟨hcl, hcr⟩
              have hvl : ∀ q ∈ l, q.2 ≠ [] := by
                intro q hq
                rw [hcl] at hq
                rcases List.mem_map.1 hq with ⟨q', hq', rfl⟩
                exact hv q' (List.mem_of_mem_filter hq')
              have hvr : ∀ q ∈ r, q.2 ≠ [] := by
                intro q hq
                rw [hcr] at hq
                exact hv q (List.mem_of_mem_filter hq)
              rcases selectMax_exists_pair hcm with ⟨pw, hpwmem, hpwu⟩
              have hllen := partitionPairs_left_nonempty hp hpwmem hpwu
              rcases partitionPairs_msum hp with ⟨hms, hlen⟩
              have hmeasl : 2 * msum l + l.length ≤ n := by
                simp only [List.length_cons] at hn hlen
                omega
              have hYl := ih l hmeasl hvl lt htl
              by_cases h0 : r.length = 0
              · rw [if_pos h0] at ht
                have := Option.some.inj ht
                subst this
                exact ⟨trivial, hYl⟩
              · rw [if_neg h0] at ht
                split at ht
                · exact Option.noConfusion ht
                · rename_i rt htr
                  have hmeasr : 2 * msum r + r.length ≤ n := by
                    simp only [List.length_cons] at hn hlen
                    omega
                  have hYr := ih r hmeasr hvr rt htr
                  have := Option.some.inj ht
                  subst this
                  exact ⟨⟨trivial, hYl⟩, hYr⟩

theorem reconstruct_YNE {tree : List (List ProveExpressionUnit × List (ℕ × F))}
    (hv : ∀ p ∈ tree, p.2 ≠ []) {t : ProveExpression F}
    (h : reconstruct tree = some t) : YNE t := by
  unfold reconstruct at h
  refine _reconstruct_YNE
    (2 * msum (tree.map (fun p => (toCountMap p.1, p.2))) +
      (tree.map (fun p => (toCountMap p.1, p.2))).length) _ (le_refl _) ?_ t h
  intro q hq
  rcases List.mem_map.1 hq with ⟨p, hp, rfl⟩
  exact hv p hp

theorem ys_add_assign_ne_nil {l r : List (ℕ × F)} (h : l ≠ []) :
    ys_add_assign l r ≠ [] :=
  foldl_ins_ne_nil (fun p : ℕ × F => p.1) (fun p : ℕ × F => p.2) (fun a b => a + b)
    r l (Or.inl h)

theorem ys_mul_ne_nil {l r : List (ℕ × F)} (h1 : l ≠ []) (h2 : r ≠ []) :
    ys_mul l r ≠ [] := by
  have hstep : ∀ (t : List (ℕ × F)) (acc : List (ℕ × F)), acc ≠ [] →
      t.foldl (fun res pl => r.foldl
        (fun res pr => slInsertWith (fun a b => a + b) (pl.1 + pr.1) (pl.2 * pr.2) res)
        res) acc ≠ [] := by
    intro t
    induction t with
    | nil => intro acc h; exact h
    | cons p t ih =>
      intro acc h
      rw [List.foldl_cons]
      exact ih _ (foldl_ins_ne_nil (fun q : ℕ × F => p.1 + q.1)
        (fun q : ℕ × F => p.2 * q.2) (fun a b => a + b) r _ (Or.inl h))
  cases l with
  | nil => exact absurd rfl h1
  | cons p t =>
    show (p :: t).foldl _ [] ≠ []
    rw [List.foldl_cons]
    exact hstep t _ (foldl_ins_ne_nil (fun q : ℕ × F => p.1 + q.1)
      (fun q : ℕ × F => p.2 * q.2) (fun a b => a + b) r [] (Or.inr h2))

theorem flatten_values_ne_nil (e : ProveExpression F) (hy : YNE e) :
    ∀ p ∈ flatten e, p.2 ≠ [] := by
  induction e with
  | Unit u =>
    intro p hp
    rcases List.mem_singleton.1 hp with rfl
    simp
  | Sum l r ihl ihr =>
    intro p hp
    refine valprop_foldl (fun q : List ProveExpressionUnit × List (ℕ × F) => q.1)
      (fun q => q.2) (fun new old => ys_add_assign old new) (fun v => v ≠ [])
      ?_ (flatten r) ?_ ?_ p hp
    · intro v w hv hw
      exact ys_add_assign_ne_nil hw
    · exact ihl hy.1
    · exact fun q hq => ihr hy.2 q hq
  | Product l r ihl ihr =>
    intro p hp
    refine valprop_double_foldl
      (fun pl pr : List ProveExpressionUnit × List (ℕ × F) =>
        (pl.1 ++ pr.1).mergeSort (fun a b => a ≤ b))
      (fun pl pr : List ProveExpressionUnit × List (ℕ × F) => ys_mul pl.2 pr.2)
      (fun new old => ys_add_assign old new) (fun v => v ≠ []) ?_
      (flatten l) (flatten r) ?_ ?_ p hp
    · intro v w hv hw
      exact ys_add_assign_ne_nil hw
    · intro x hx z hz
      exact ys_mul_ne_nil (ihl hy.1 x hx) (ihr hy.2 z hz)
    · exact fun q hq => absurd hq (List.not_mem_nil q)
  | Y m =>
    intro p hp
    rcases List.mem_singleton.1 hp with rfl
    exact hy

theorem from_expr_YNE :
    ∀ (e : Expression F) (t : ProveExpression F), from_expr e = some t → YNE t := by
  intro e
  induction e with
  | Constant x =>
    intro t h
    have := Option.some.inj h
    subst this
    show ([(0, x)] : List (ℕ × F)) ≠ []
    simp
  | Selector =>
    intro t h
    exact Option.noConfusion h
  | Fixed ci r =>
    intro t h
    have := Option.some.inj h
    subst this
    exact trivial
  | Advice ci r =>
    intro t h
    have := Option.some.inj h
    subst this
    exact trivial
  | Instance ci r =>
    intro t h
    have := Option.some.inj h
    subst this
    exact trivial
  | Negated e ih =>
    intro t h
    simp only [from_expr] at h
    rcases Option.map_eq_some'.1 h with ⟨a, ha, rfl⟩
    exact ⟨ih a ha, by show ([(0, -1)] : List (ℕ × F)) ≠ []; simp⟩
  | Sum l r ihl ihr =>
    intro t h
    simp only [from_expr] at h
    rcases hl : from_expr l with _ | l'
    · rw [hl] at h
      simp at h
    · rw [hl] at h
      rcases hr : from_expr r with _ | r'
      · rw [hr] at h
        simp at h
      · rw [hr] at h
        simp at h
        subst h
        exact ⟨ihl l' hl, ihr r' hr⟩
  | Product l r ihl ihr =>
    intro t h
    simp only [from_expr] at h
    rcases hl : from_expr l with _ | l'
    · rw [hl] at h
      simp at h
    · rw [hl] at h
      rcases hr : from_expr r with _ | r'
      · rw [hr] at h
        simp at h
      · rw [hr] at h
        simp at h
        subst h
        exact ⟨ihl l' hl, ihr r' hr⟩
  | Scaled e x ih =>
    intro t h
    simp only [from_expr] at h
    rcases Option.map_eq_some'.1 h with ⟨a, ha, rfl⟩
    exact ⟨ih a ha, by show ([(0, x)] : List (ℕ × F)) ≠ []; simp⟩

theorem add_gate_YNE {a : ProveExpression F} {e : Expression F}
    {t : ProveExpression F} (ha : YNE a) (h : add_gate a e = some t) : YNE t := by
  unfold add_gate at h
  rcases Option.map_eq_some'.1 h with ⟨g, hg, rfl⟩
  exact ⟨⟨ha, by show ([(1, 1)] : List (ℕ × F)) ≠ []; simp⟩, from_expr_YNE e g hg⟩

end YNonempty

end ProveExpression

/-- The public construction path of the spec (section 4.1): `new`, a
successful `from_expr`, `add_gate` onto a path expression, and
`reconstruct (flatten ·)` of a path expression. -/
inductive CP {F : Type} [CommRing F] : ProveExpression F → Prop where
  | new : CP ProveExpression.new
  | from_expr (e : Expression F) (t : ProveExpression F)
      (h : ProveExpression.from_expr e = some t) : CP t
  | add_gate (a : ProveExpression F) (e : Expression F) (t : ProveExpression F)
      (ha : CP a) (h : ProveExpression.add_gate a e = some t) : CP t
  | reconstructed (e : ProveExpression F) (t : ProveExpression F) (he : CP e)
      (h : ProveExpression.reconstruct (ProveExpression.flatten e) = some t) : CP t

theorem CP_YNE {F : Type} [CommRing F] {e : ProveExpression F} (h : CP e) :
    ProveExpression.YNE e := by
  induction h with
  | new =>
    show ([((0 : ℕ), (0 : F))] : List (ℕ × F)) ≠ []
    simp
  | from_expr e t ht => exact ProveExpression.from_expr_YNE e t ht
  | add_gate a e t ha ht iha => exact ProveExpression.add_gate_YNE iha ht
  | reconstructed e t he ht ihe =>
    exact ProveExpression.reconstruct_YNE
      (ProveExpression.flatten_values_ne_nil e ihe) ht

/-- C9: on the public construction path (`new`, successful `from_expr`,
`add_gate`, and `reconstruct ∘ flatten` of such expressions) every `Y` node
carries a non-empty coefficient mapping, so the `keys().max().unwrap()` of
the Y branch of `_eval_gpu` never panics (`YSafe`); `flatten` always yields a
non-empty canonical map; and `reconstruct (flatten e)` always succeeds, so
the first-entry selection inside `_reconstruct` never reaches its failure
branch: the `MalformedExpression` situation is unreachable. -/
theorem c9_malformed_unreachable {F : Type} [CommRing F] (e : ProveExpression F)
    (h : CP e) :
    ProveExpression.YSafe e ∧ ProveExpression.flatten e ≠ [] ∧
      (ProveExpression.reconstruct (ProveExpression.flatten e)).isSome := by
  refine ⟨ProveExpression.YNE_YSafe (CP_YNE h), ProveExpression.flatten_ne_nil e, ?_⟩
  rcases ProveExpression.reconstruct_flatten_sound e with ⟨t, ht, _⟩
  rw [ht]
  rfl

/-- Witness for C9: the construction-path hypothesis holds for
`ProveExpression.new` by the first constructor, and the conclusion is the
theorem's instance there. -/
theorem c9_malformed_unreachable_witness :
    ProveExpression.YSafe (ProveExpression.new : ProveExpression ℤ) ∧
      ProveExpression.flatten (ProveExpression.new : ProveExpression ℤ) ≠ [] ∧
      (ProveExpression.reconstruct (ProveExpression.flatten
        (ProveExpression.new : ProveExpression ℤ))).isSome :=
  c9_malformed_unreachable ProveExpression.new CP.new
